/-
Verification of the BracketBuilder bracketology engine.

This file gives a shallow embedding, over exact rational arithmetic, of the
engine found in `pipeline/bracketology.py` and `server/bracketology.py`:
committee scoring, conference-champion projection, at-large selection,
S-curve seeding, conflict-aware region placement, Round-of-64 matchup
generation, and the full `run_bracketology` pipeline (the server variant,
parameterized by the two input tables that `_load_inputs` produces, so the
embedding itself performs no I/O).

Modelling conventions:
* Python floats are modelled as `ℚ` (the engine's arithmetic is plain
  field arithmetic; claim-relevant properties do not hinge on rounding of
  binary floats).
* Python's `random.Random(seed)` is a deterministic pseudo-random generator;
  it is modelled as an abstract deterministic stream (`Rng`).  The weight
  vectors passed to `Random.choices` shape only the sampling distribution,
  never determinism or the index ranges, so the weighted draw is abstracted
  into the stream while preserving the guarantee that returned indices lie
  below the population size.
* `pandas.DataFrame`s are modelled as lists of records; `sort_values` is
  modelled as a stable insertion sort (the source's quicksort is unstable on
  exact ties, an ambiguity the code does not otherwise depend on).
-/
import Mathlib

namespace BracketBuilder

/-! ## Python-style string parsing helpers -/

/-- Python's `int(s)` on a string: optional surrounding whitespace, optional
sign, then digits; `none` when the call would raise `ValueError`. -/
def pyInt? (s : String) : Option ℤ :=
  let t := s.trim
  if t.startsWith "-" then ((t.drop 1).toNat?).map (fun n => -(n : ℤ))
  else if t.startsWith "+" then ((t.drop 1).toNat?).map (fun n => (n : ℤ))
  else (t.toNat?).map (fun n => (n : ℤ))

/-- `_parse_quad`: parse a `"wins-losses"` quadrant string; any string that is
not of that shape (no `-`, or pieces that are not integers) parses to `(0, 0)`
without raising. -/
def parseQuad (s : String) : ℤ × ℤ :=
  if ¬ s.contains '-' then (0, 0)
  else
    match s.trim.splitOn "-" with
    | p0 :: p1 :: _ =>
      match pyInt? p0, pyInt? p1 with
      | some a, some b => (a, b)
      | _, _ => (0, 0)
    | _ => (0, 0)

/-! ## Data model -/

/-- One row of the engine's team table (a TeamResume as produced by the data
layer: numeric fields already coerced, string fields present). -/
structure TeamRow where
  team_name_normalized : String
  team_name : String
  team_slug : String
  conference : String
  record : String
  net_rank : ℚ
  sos_rank : ℚ
  win_pct : ℚ
  power_score : ℚ
  q1_record : String
  q2_record : String
  q3_record : String
  q4_record : String
deriving DecidableEq, Repr, Inhabited

/-- A team row together with its computed committee score and auto-bid flag
(the `committee_score` / `is_auto_bid` columns the pipeline adds). -/
structure ScoredTeam where
  base : TeamRow
  committee_score : ℚ
  is_auto_bid : Bool
deriving DecidableEq, Repr, Inhabited

/-- One row of the standings table (conference affiliation plus in-conference
winning percentage). -/
structure StandingRow where
  team_name_normalized : String
  conference : String
  conf_pct : ℚ
  record : String
deriving DecidableEq, Repr, Inhabited

/-- A SeededTeam record as built by `assign_seeds`. -/
structure SeededTeam where
  team_name_normalized : String
  team_name : String
  team_slug : String
  overall_rank : ℕ
  seed : ℕ
  committee_score : ℚ
  net_rank : ℤ
  conference : String
  record : String
  is_auto_bid : Bool
deriving DecidableEq, Repr, Inhabited

/-! ## Committee score (`compute_committee_score`) -/

/-- The set of "power" conferences. -/
def POWER_CONFERENCES : List String := ["SEC", "Big Ten", "Big 12", "ACC", "Big East"]

/-- The "upper-mid" conference tier. -/
def UPPER_MID : List String := ["WCC", "Mountain West", "American", "Atlantic 10", "MVC"]

/-- `np.clip(x, lo, hi)`. -/
def clip (lo hi x : ℚ) : ℚ := min hi (max lo x)

/-- Python's `round(x, 2)`; modelled as round-half-up to an integer number of
hundredths (half-even vs half-up differ only on exact `.005` boundaries, where
binary-float noise leaves the source's behavior unspecified anyway). -/
def round2 (q : ℚ) : ℚ := ((round (q * 100) : ℤ) : ℚ) / 100

/-- `x or d` for a Python float `x`: `0.0` is falsy and replaced by `d`. -/
def orDefault (x d : ℚ) : ℚ := if x = 0 then d else x

/-- NET component: percentile scaling with elite-rank boosts, capped at 100. -/
def netComponent (net_rank : ℚ) : ℚ :=
  let net_pctl0 := max 0 ((365 - net_rank) / 365) * 100
  let net_pctl :=
    if net_rank ≤ 10 then net_pctl0 + 8
    else if net_rank ≤ 20 then net_pctl0 + 4
    else if net_rank ≤ 30 then net_pctl0 + 2
    else net_pctl0
  min 100 net_pctl

/-- Quad-record component from the four parsed quadrant records. -/
def quadComponent (q1 q2 q3 q4 : ℤ × ℤ) : ℚ :=
  let quad_raw0 : ℚ :=
    (q1.1 : ℚ) * 5 + (q2.1 : ℚ) * (5/2) + (q3.1 : ℚ) * (1/2) + (q4.1 : ℚ) * (1/5)
      - (q3.2 : ℚ) * 8 - (q4.2 : ℚ) * 15
  let quad_raw1 := if q1.1 = 0 then quad_raw0 - 10 else quad_raw0
  let quad_raw :=
    if q1.1 ≥ 8 then quad_raw1 + 6
    else if q1.1 ≥ 6 then quad_raw1 + 3
    else quad_raw1
  clip 0 100 ((quad_raw + 20) / 60 * 100)

/-- Conference-context component. -/
def confComponent (conference : String) (q1 q2 q3 q4 : ℤ × ℤ) : ℚ :=
  let conf_bonus0 : ℚ :=
    if POWER_CONFERENCES.contains conference then 70
    else if UPPER_MID.contains conference then 55
    else 35
  let total_games : ℤ := q1.1 + q1.2 + q2.1 + q2.2 + q3.1 + q3.2 + q4.1 + q4.2
  let pct_tough : ℚ := ((q1.1 + q1.2 + q2.1 + q2.2 : ℤ) : ℚ) / ((max total_games 1 : ℤ) : ℚ)
  let conf_bonus := if pct_tough > 1/2 then conf_bonus0 + 10 else conf_bonus0
  clip 0 100 conf_bonus

/-- Record-floor branch structure on parsed wins/losses: sub-.500 → −25,
fewer than 15 wins → −15, sub-.550 → −8, else 0. -/
def recordPenaltyCore (w l : ℤ) : ℚ :=
  let total := w + l
  if 0 < total ∧ (w : ℚ) / (total : ℚ) < 1/2 then -25
  else if w < 15 then -15
  else if 0 < total ∧ (w : ℚ) / (total : ℚ) < 11/20 then -8
  else 0

/-- Record-floor penalty from the overall `"W-L"` record string; an
unparseable record yields 0 penalty (the `except` path). -/
def recordPenalty (s : String) : ℚ :=
  match s.splitOn "-" with
  | [] => 0
  | [p0] =>
    match pyInt? p0 with
    | some w => recordPenaltyCore w 0
    | none => 0
  | p0 :: p1 :: _ =>
    match pyInt? p0, pyInt? p1 with
    | some w, some l => recordPenaltyCore w l
    | _, _ => 0

/-- The weighted component sum plus record penalty, before the final floor at
0 and rounding. -/
def committeePre (row : TeamRow) : ℚ :=
  let net_rank := orDefault row.net_rank 365
  let sos_rank := orDefault row.sos_rank 365
  let win_pct := orDefault row.win_pct 50
  let power_score := orDefault row.power_score 50
  let q1 := parseQuad row.q1_record
  let q2 := parseQuad row.q2_record
  let q3 := parseQuad row.q3_record
  let q4 := parseQuad row.q4_record
  let sos_pctl := max 0 ((365 - sos_rank) / 365) * 100
  (35/100) * netComponent net_rank +
    (30/100) * quadComponent q1 q2 q3 q4 +
    (10/100) * sos_pctl +
    (10/100) * clip 0 100 win_pct +
    (10/100) * clip 0 100 power_score +
    (5/100) * confComponent row.conference q1 q2 q3 q4 +
    recordPenalty row.record

/-- `compute_committee_score`: Selection-Committee style evaluation on a
0-100 scale, floored at 0 and rounded to 2 decimals.  A pure function of the
row by construction. -/
def compute_committee_score (row : TeamRow) : ℚ :=
  round2 (max 0 (committeePre row))

/-! ## Deterministic model of `random.Random`

A `random.Random(seed)` instance is a deterministic pseudo-random generator:
its entire output stream is a function of the seed and of the sequence of
calls made on it.  The Mersenne-Twister stream itself is abstracted as a
counter-based stream; what the claims need is (a) determinism and (b) that
`Random.choices(range(n), weights, k)` returns `k` indices `< n`. -/

/-- Abstract deterministic generator state. -/
structure Rng where
  state : ℕ
deriving DecidableEq, Repr, Inhabited

/-- `random.Random(seed)`.  `Random(None)` seeds from OS entropy and is not
deterministic; the claims only constrain runs with a non-null seed, for which
this constructor is a function of the seed alone. -/
def mkRng (seed : Option ℤ) : Rng := ⟨(seed.getD 0).natAbs⟩

/-- Advance the stream. -/
def rngStep (g : Rng) (consumed : ℕ) : Rng := ⟨g.state * 1664525 + 1013904223 + consumed⟩

/-- `rng.choices(range(n), weights=w, k=k)`: `k` weighted draws with
replacement from `range(n)`.  The draws are abstracted as a deterministic
function of the stream; every returned index is `< n` (Python guarantees this
for a nonempty population). -/
def rngChoices (g : Rng) (n k : ℕ) : List ℕ × Rng :=
  (((List.range k).map (fun i => (g.state + 7 * i) % n)), rngStep g k)

/-- `rng.gauss(mu, sigma)`: one Gaussian draw, abstracted as a deterministic
function of the stream (its value shapes only the shuffle noise). -/
def rngGauss (g : Rng) (mu sigma : ℚ) : ℚ × Rng :=
  (mu + sigma * ((g.state % 7 : ℕ) : ℚ) / 7, rngStep g 2)

/-! ## Generic list helpers -/

/-- Python's `seen`-set deduplication loop: keep the first occurrence of each
element not already in `seen`, in encounter order. -/
def dedupFirstAux [DecidableEq α] (seen : List α) : List α → List α
  | [] => []
  | a :: rest =>
    if a ∈ seen then dedupFirstAux seen rest
    else a :: dedupFirstAux (seen ++ [a]) rest

/-- Deduplicate keeping the first occurrence of each element, in encounter
order (the semantics of Python's `seen`-set loops and, for membership and
cardinality purposes, of `set(...)`). -/
def dedupFirst [DecidableEq α] (l : List α) : List α := dedupFirstAux [] l

/-! ## Sorting relations (`pandas.sort_values` orders) -/

/-- Order used for `sort_values("committee_score", ascending=False)`. -/
def scoreGE (a b : ScoredTeam) : Prop := b.committee_score ≤ a.committee_score

instance : DecidableRel scoreGE := fun a b =>
  inferInstanceAs (Decidable (b.committee_score ≤ a.committee_score))

instance : IsTotal ScoredTeam scoreGE := ⟨fun a b => le_total b.committee_score a.committee_score⟩

instance : IsTrans ScoredTeam scoreGE := ⟨fun _ _ _ h1 h2 => le_trans h2 h1⟩

/-! ## Conference-champion projection (`project_conference_champions`) -/

/-- A row of `standings.merge(teams[["team_name_normalized", "net_rank",
"committee_score"]], on="team_name_normalized", how="left")` after the
`fillna` coercions. -/
structure MergedRow where
  team_name_normalized : String
  conference : String
  conf_pct : ℚ
  net_rank : ℚ
  committee_score : ℚ
deriving DecidableEq, Repr, Inhabited

/-- One row of the left join: a standings row picks up `net_rank` and
`committee_score` from its team row (the team table holds one resume per
team), with the unmatched-row `fillna` defaults 999 and 0. -/
def mergeRow (teams : List ScoredTeam) (s : StandingRow) : MergedRow :=
  match teams.find? (fun t => t.base.team_name_normalized == s.team_name_normalized) with
  | some t => ⟨s.team_name_normalized, s.conference, s.conf_pct, t.base.net_rank,
      t.committee_score⟩
  | none => ⟨s.team_name_normalized, s.conference, s.conf_pct, 999, 0⟩

/-- The left join `standings.merge(teams[...], on="team_name_normalized",
how="left")` after the `fillna` coercions. -/
def mergeStandings (standings : List StandingRow) (teams : List ScoredTeam) : List MergedRow :=
  standings.map (mergeRow teams)

/-- Order used for `sort_values(["conf_pct", "net_rank"],
ascending=[False, True])`. -/
def champRel (a b : MergedRow) : Prop :=
  b.conf_pct < a.conf_pct ∨ (a.conf_pct = b.conf_pct ∧ a.net_rank ≤ b.net_rank)

instance : DecidableRel champRel := fun a b =>
  inferInstanceAs (Decidable (b.conf_pct < a.conf_pct ∨
    (a.conf_pct = b.conf_pct ∧ a.net_rank ≤ b.net_rank)))

instance : IsTotal MergedRow champRel := by
  constructor
  intro a b
  rcases lt_trichotomy a.conf_pct b.conf_pct with h | h | h
  · exact Or.inr (Or.inl h)
  · rcases le_total a.net_rank b.net_rank with h2 | h2
    · exact Or.inl (Or.inr ⟨h, h2⟩)
    · exact Or.inr (Or.inr ⟨h.symm, h2⟩)
  · exact Or.inl (Or.inl h)

instance : IsTrans MergedRow champRel := by
  constructor
  intro a b c hab hbc
  rcases hab with hab | ⟨hab, hab2⟩
  · rcases hbc with hbc | ⟨hbc, _⟩
    · exact Or.inl (lt_trans hbc hab)
    · exact Or.inl (hbc ▸ hab)
  · rcases hbc with hbc | ⟨hbc, hbc2⟩
    · exact Or.inl (hab ▸ hbc)
    · exact Or.inr ⟨hab.trans hbc, hab2.trans hbc2⟩

/-- Champion rows of one conference, best first. -/
def confSorted (merged : List MergedRow) (conf : String) : List MergedRow :=
  (merged.filter (fun r => r.conference == conf)).insertionSort champRel

/-- The body of the per-conference champion loop: deterministic head pick for
`variance == 0` or no generator, otherwise a weighted draw (one index) from
the top (at most) 6 contenders. -/
def champStep (merged : List MergedRow) (variance : ℚ)
    (acc : List (String × String) × Option Rng) (conf : String) :
    List (String × String) × Option Rng :=
  match confSorted merged conf with
  | [] => acc
  | top :: _ =>
    if variance = 0 ∨ acc.2 = none then
      (acc.1 ++ [(conf, top.team_name_normalized)], acc.2)
    else
      match acc.2 with
      | none => (acc.1 ++ [(conf, top.team_name_normalized)], acc.2)
      | some g =>
        let n := min (confSorted merged conf).length 6
        let draw := rngChoices g n 1
        let chosen := ((confSorted merged conf).take n).getD (draw.1.headD 0) top
        (acc.1 ++ [(conf, chosen.team_name_normalized)], some draw.2)

/-- `project_conference_champions`: one projected champion per conference in
the standings.  Returns the `{conference: champion}` mapping (an association
list in first-appearance order, the iteration order of `unique()` and of a
Python dict) and the threaded generator. -/
def project_conference_champions (standings : List StandingRow) (teams : List ScoredTeam)
    (rng : Option Rng) (variance : ℚ) : List (String × String) × Option Rng :=
  let merged := mergeStandings standings teams
  let confs := dedupFirst (merged.map (fun r => r.conference))
  confs.foldl (champStep merged variance) ([], rng)

/-- The deterministic-branch value of the champion fold: one entry per
conference (in first-appearance order) whose sorted contender list is
nonempty, mapping to the head of that list. -/
def detChampList (merged : List MergedRow) : List String → List (String × String)
  | [] => []
  | c :: rest =>
    match confSorted merged c with
    | [] => detChampList merged rest
    | top :: _ => (c, top.team_name_normalized) :: detChampList merged rest

/-! ## At-large selection (`select_at_large`) -/

/-- The sorted non-auto-bid candidate pool. -/
def alCandidates (teams : List ScoredTeam) (auto_bid_teams : List String) : List ScoredTeam :=
  (teams.filter (fun t => ¬ auto_bid_teams.contains t.base.team_name_normalized)).insertionSort
    scoreGE

/-- The `while`/`for` fill loop of `select_at_large`: starting from the
deduplicated drawn indices (distinct, each `< n`), append unused indices in
ascending order until `remaining` indices are collected or all `n` are used. -/
def fillUnused (uniq : List ℕ) (n remaining : ℕ) : List ℕ :=
  if remaining ≤ uniq.length ∨ n ≤ uniq.length then uniq
  else uniq ++ ((List.range n).filter (fun j => j ∉ uniq)).take (remaining - uniq.length)

/-- `select_at_large`: top `n_spots` candidates by committee score in
deterministic mode; in shuffle mode the top `n_spots − 6` are locked and the
rest drawn (with replacement, then deduplicated and greedily completed) from
the 12-team bubble pool below the locks. -/
def select_at_large (teams : List ScoredTeam) (auto_bid_teams : List String) (n_spots : ℕ)
    (rng : Option Rng) (variance : ℚ) : List String × Option Rng :=
  let candidates := alCandidates teams auto_bid_teams
  if variance = 0 ∨ rng = none then
    ((candidates.take n_spots).map (fun t => t.base.team_name_normalized), rng)
  else
    match rng with
    | none => ((candidates.take n_spots).map (fun t => t.base.team_name_normalized), rng)
    | some g =>
      let lock_in_count := n_spots - 6
      let bubble_pool_size := 12
      let locks := (candidates.take lock_in_count).map (fun t => t.base.team_name_normalized)
      let bubble_candidates := (candidates.drop lock_in_count).take bubble_pool_size
      if bubble_candidates.length = 0 then (locks, some g)
      else
        let remaining_spots := n_spots - lock_in_count
        let draw :=
          rngChoices g bubble_candidates.length (min remaining_spots bubble_candidates.length)
        let unique_indices := fillUnused (dedupFirst draw.1)
          bubble_candidates.length remaining_spots
        let bubble_selected := unique_indices.map
          (fun i => (bubble_candidates.getD i default).base.team_name_normalized)
        (locks ++ bubble_selected.take remaining_spots, some draw.2)

/-! ## Seeding (`assign_seeds`) -/

/-- Python's `int(x)` on a float/rational: truncation toward zero. -/
def pyTrunc (q : ℚ) : ℤ := if 0 ≤ q then ⌊q⌋ else ⌈q⌉

/-- One SeededTeam record of `assign_seeds`, from the 0-based position `i`:
`overall_rank = i + 1`, `seed = min(16, i // 4 + 1)`; `net_rank` goes through
`int(... or 999)`. -/
def mkSeeded (i : ℕ) (t : ScoredTeam) : SeededTeam :=
  { team_name_normalized := t.base.team_name_normalized
    team_name := t.base.team_name
    team_slug := t.base.team_slug
    overall_rank := i + 1
    seed := min 16 (i / 4 + 1)
    committee_score := t.committee_score
    net_rank := if t.base.net_rank = 0 then 999 else pyTrunc t.base.net_rank
    conference := t.base.conference
    record := t.base.record
    is_auto_bid := t.is_auto_bid }

/-- The `enumerate(field.iterrows())` loop of `assign_seeds`. -/
def seedify : ℕ → List ScoredTeam → List SeededTeam
  | _, [] => []
  | i, t :: rest => mkSeeded i t :: seedify (i + 1) rest

/-- Order on (team, seed_score) pairs for the shuffle re-sort. -/
def seedScoreGE (a b : ScoredTeam × ℚ) : Prop := b.2 ≤ a.2

instance : DecidableRel seedScoreGE := fun a b => inferInstanceAs (Decidable (b.2 ≤ a.2))

instance : IsTotal (ScoredTeam × ℚ) seedScoreGE := ⟨fun a b => le_total b.2 a.2⟩

instance : IsTrans (ScoredTeam × ℚ) seedScoreGE := ⟨fun _ _ _ h1 h2 => le_trans h2 h1⟩

/-- The Gaussian noise vector `[rng.gauss(0, variance * 1.5) for _ in field]`. -/
def gaussList (g : Rng) (sigma : ℚ) : ℕ → List ℚ × Rng
  | 0 => ([], g)
  | n + 1 =>
    let (v, g2) := rngGauss g 0 sigma
    let (rest, g3) := gaussList g2 sigma n
    (v :: rest, g3)

/-- The noise-amplification loop: `noise[i] *= 1.5` for `i ≥ 16`,
`noise[i] *= 1.2` for `i ≥ 8`. -/
def amplifyNoise : ℕ → List ℚ → List ℚ
  | _, [] => []
  | i, x :: rest =>
    (if 16 ≤ i then x * (3/2) else if 8 ≤ i then x * (6/5) else x) :: amplifyNoise (i + 1) rest

/-- `assign_seeds`: filter the field out of the scored pool, order by
committee score (with optional shuffle noise added before the final sort) and
assign S-curve ranks and seed lines. -/
def assign_seeds (teams : List ScoredTeam) (field_teams : List String)
    (rng : Option Rng) (variance : ℚ) : List SeededTeam × Option Rng :=
  let field0 := (teams.filter
    (fun t => field_teams.contains t.base.team_name_normalized)).insertionSort scoreGE
  match rng with
  | none => (seedify 0 field0, none)
  | some g =>
    if 0 < variance then
      let draw := gaussList g (variance * (3/2)) field0.length
      let amped := amplifyNoise 0 draw.1
      let with_scores := List.zipWith (fun t x => (t, t.committee_score + x)) field0 amped
      let field := (with_scores.insertionSort seedScoreGE).map Prod.fst
      (seedify 0 field, some draw.2)
    else (seedify 0 field0, some g)

/-! ## Region placement (`place_into_regions`)

The placement state holds the four region team lists, indexed in the fixed
order `REGIONS = ["East", "West", "South", "Midwest"]`.  The source also keeps
a `region_confs` per-region conference counter, but it is updated in lockstep
with every append to a region list, so it always equals the conference count
of the corresponding list and is embedded as that derived count. -/

/-- The four region names, in their fixed source order. -/
def REGIONS : List String := ["East", "West", "South", "Midwest"]

/-- The four region team lists, in `REGIONS` order. -/
structure Regions where
  east : List SeededTeam
  west : List SeededTeam
  south : List SeededTeam
  midwest : List SeededTeam
deriving DecidableEq, Repr, Inhabited

/-- The empty placement state. -/
def emptyRegions : Regions := ⟨[], [], [], []⟩

/-- Region list at index `r` (0 = East, 1 = West, 2 = South, 3 = Midwest;
only indices `< 4` occur). -/
def getR (rs : Regions) : ℕ → List SeededTeam
  | 0 => rs.east
  | 1 => rs.west
  | 2 => rs.south
  | _ => rs.midwest

/-- Append a team to region `r`. -/
def addR (rs : Regions) (r : ℕ) (t : SeededTeam) : Regions :=
  match r with
  | 0 => { rs with east := rs.east ++ [t] }
  | 1 => { rs with west := rs.west ++ [t] }
  | 2 => { rs with south := rs.south ++ [t] }
  | _ => { rs with midwest := rs.midwest ++ [t] }

/-- All teams placed so far, in region order. -/
def regionsFlat (rs : Regions) : List SeededTeam :=
  rs.east ++ rs.west ++ rs.south ++ rs.midwest

/-- Number of teams of conference `c` in the full seeded field. -/
def confTotal (seeded : List SeededTeam) (c : String) : ℕ :=
  (seeded.filter (fun t => t.conference == c)).length

/-- `conf_caps`: per-region conference cap `max(2, (total + 3) // 4 + 1)`
(i.e. `max(2, ceil(total/4) + 1)`); a conference absent from the field keeps
the dictionary default 4. -/
def confCap (seeded : List SeededTeam) (c : String) : ℕ :=
  let total := confTotal seeded c
  if total = 0 then 4 else max 2 ((total + 3) / 4 + 1)

/-- Top half of the seed layout (may meet before the Sweet 16). -/
def TOP_HALF : List ℕ := [1, 16, 8, 9, 4, 13, 5, 12]

/-- Bottom half of the seed layout. -/
def BOT_HALF : List ℕ := [2, 15, 7, 10, 3, 14, 6, 11]

/-- `_conflict_score`: penalty for placing `team` in the region currently
holding `regionTeams`, given conference caps derived from the full field:
200 for reaching the conference cap, plus per same-conference team already
committed there 100 for a same-half clash, 80 for a projected {1,2}/{3,4}
regional-final clash, and an unconditional 8. -/
def conflictScore (seeded : List SeededTeam) (regionTeams : List SeededTeam)
    (team : SeededTeam) : ℕ :=
  let conf := team.conference
  let seed := team.seed
  let capPenalty :=
    if confCap seeded conf ≤ (regionTeams.filter (fun e => e.conference == conf)).length
    then 200 else 0
  capPenalty +
    ((regionTeams.filter (fun e => e.conference == conf)).map (fun e =>
      let es := e.seed
      (if (seed ∈ TOP_HALF ∧ es ∈ TOP_HALF) ∨ (seed ∈ BOT_HALF ∧ es ∈ BOT_HALF)
       then 100 else 0) +
      (if (seed = 1 ∧ es = 2) ∨ (seed = 2 ∧ es = 1) ∨ (seed = 3 ∧ es = 4) ∨
          (seed = 4 ∧ es = 3)
       then 80 else 0) + 8)).sum

/-- `itertools.permutations(range(4))`, in its lexicographic emission order.
Entry `p` maps region index `ri` to chunk index `p[ri]`. -/
def PERMS4 : List (List ℕ) :=
  [[0,1,2,3], [0,1,3,2], [0,2,1,3], [0,2,3,1], [0,3,1,2], [0,3,2,1],
   [1,0,2,3], [1,0,3,2], [1,2,0,3], [1,2,3,0], [1,3,0,2], [1,3,2,0],
   [2,0,1,3], [2,0,3,1], [2,1,0,3], [2,1,3,0], [2,3,0,1], [2,3,1,0],
   [3,0,1,2], [3,0,2,1], [3,1,0,2], [3,1,2,0], [3,2,0,1], [3,2,1,0]]

/-- Total conflict of assigning the chunk along permutation `p` (each region
`ri` receives `chunk[p[ri]]`), scored against the regions as they currently
stand — chunk members do not see each other. -/
def permTotal (seeded : List SeededTeam) (rs : Regions) (chunk : List SeededTeam)
    (p : List ℕ) : ℕ :=
  ((List.range 4).map
    (fun ri => conflictScore seeded (getR rs ri) (chunk.getD (p.getD ri 0) default))).sum

/-- One step of the strict-improvement scan (`best_total = inf` start, `<`
update, so the earliest minimum is kept). -/
def bestScanStep (f : List ℕ → ℕ) (best : Option (List ℕ × ℕ)) (p : List ℕ) :
    Option (List ℕ × ℕ) :=
  match best with
  | none => some (p, f p)
  | some b => if f p < b.2 then some (p, f p) else some b

/-- The strict-improvement scan over a list of candidate permutations. -/
def bestPermAux (f : List ℕ → ℕ) (ps : List (List ℕ)) : Option (List ℕ × ℕ) :=
  ps.foldl (bestScanStep f) none

/-- The permutation `place_into_regions` commits for a full 4-team chunk. -/
def bestPerm (seeded : List SeededTeam) (rs : Regions) (chunk : List SeededTeam) : List ℕ :=
  match bestPermAux (permTotal seeded rs chunk) PERMS4 with
  | some r => r.1
  | none => [0, 1, 2, 3]

/-- Commit a 4-team chunk along permutation `p`: region `ri` receives
`chunk[p[ri]]`, for `ri = 0..3`. -/
def commitPerm (rs : Regions) (chunk : List SeededTeam) (p : List ℕ) : Regions :=
  (List.range 4).foldl (fun acc ri => addR acc ri (chunk.getD (p.getD ri 0) default)) rs

/-- One step of the greedy region scan: skip regions already used within
this chunk, keep the first strict minimum of the conflict score. -/
def regionScanStep (seeded : List SeededTeam) (rs : Regions) (t : SeededTeam) (used : List ℕ)
    (best : Option (ℕ × ℕ)) (r : ℕ) : Option (ℕ × ℕ) :=
  if r ∈ used then best
  else
    match best with
    | none => some (r, conflictScore seeded (getR rs r) t)
    | some b =>
      if conflictScore seeded (getR rs r) t < b.2 then
        some (r, conflictScore seeded (getR rs r) t)
      else some b

/-- The greedy choice for one team of a partial chunk: scan the regions in
order. -/
def bestRegion (seeded : List SeededTeam) (rs : Regions) (used : List ℕ)
    (t : SeededTeam) : Option ℕ :=
  ((List.range 4).foldl (regionScanStep seeded rs t used) none).map Prod.fst

/-- The greedy loop for a partial (< 4 team) chunk. -/
def greedyGo (seeded : List SeededTeam) : Regions → List ℕ → List SeededTeam → Regions
  | rs, _, [] => rs
  | rs, used, t :: rest =>
    match bestRegion seeded rs used t with
    | some r => greedyGo seeded (addR rs r t) (used ++ [r]) rest
    | none => greedyGo seeded rs used rest

/-- Place one chunk of a seed line: all 24 permutations for a full chunk,
greedy placement otherwise. -/
def placeChunk (seeded : List SeededTeam) (rs : Regions) (chunk : List SeededTeam) : Regions :=
  if chunk.length < 4 then greedyGo seeded rs [] chunk
  else commitPerm rs chunk (bestPerm seeded rs chunk)

/-- `range(0, len(l), 4)` chunking: full chunks of 4, then the partial
remainder if any. -/
def chunks4 : List α → List (List α)
  | [] => []
  | a :: b :: c :: d :: rest => [a, b, c, d] :: chunks4 rest
  | l => [l]

/-- Process one seed line: its teams are split into chunks of 4, placed in
order. -/
def processLine (seeded : List SeededTeam) (rs : Regions) (lineTeams : List SeededTeam) :
    Regions :=
  (chunks4 lineTeams).foldl (placeChunk seeded) rs

/-- Order for the final per-region `sort(key=seed)`. -/
def seedLE (a b : SeededTeam) : Prop := a.seed ≤ b.seed

instance : DecidableRel seedLE := fun a b => inferInstanceAs (Decidable (a.seed ≤ b.seed))

instance : IsTotal SeededTeam seedLE := ⟨fun a b => Nat.le_total a.seed b.seed⟩

instance : IsTrans SeededTeam seedLE := ⟨fun _ _ _ h1 h2 => le_trans h1 h2⟩

/-- Final per-region sort by seed. -/
def sortRegions (rs : Regions) : Regions :=
  ⟨rs.east.insertionSort seedLE, rs.west.insertionSort seedLE,
   rs.south.insertionSort seedLE, rs.midwest.insertionSort seedLE⟩

/-- `place_into_regions`: group the seeded field by seed line, process lines
1..16 in order (chunked placement), then sort each region by seed.  The
generator argument is accepted but unused (placement is the deterministic
optimizer). -/
def place_into_regions (seeded : List SeededTeam) (_rng : Option Rng) : Regions :=
  sortRegions
    ((List.range' 1 16).foldl
      (fun rs s => processLine seeded rs (seeded.filter (fun t => t.seed == s)))
      emptyRegions)

/-! ## Matchup generation (`generate_matchups`)

The server variant is embedded (the pipeline variant is identical except that
it omits the six constant narrative placeholder fields and the `team*Full`
enrichment that `run_bracketology` adds afterwards). -/

/-- The fixed Round-of-64 reveal-order seed pairing table. -/
def SEED_MATCHUPS : List (ℕ × ℕ) :=
  [(1, 16), (8, 9), (5, 12), (4, 13), (2, 15), (7, 10), (6, 11), (3, 14)]

/-- One Round-of-64 game record. -/
structure Matchup where
  id : String
  round : ℕ
  region : String
  team1Seed : ℕ
  team2Seed : ℕ
  team1 : String
  team1Slug : String
  team1NetRank : ℤ
  team1Score : ℚ
  team1Record : String
  team1Conference : String
  team1AutoBid : Bool
  team2 : String
  team2Slug : String
  team2NetRank : ℤ
  team2Score : ℚ
  team2Record : String
  team2Conference : String
  team2AutoBid : Bool
  analysis : String
  proTeam1 : List String
  proTeam2 : List String
  rotobotPick : String
  rotobotConfidence : ℕ
  pickReasoning : String
  team1Full : Option SeededTeam
  team2Full : Option SeededTeam
deriving DecidableEq, Repr, Inhabited

/-- `{t["seed"]: t for t in region_teams}` lookup: the last team with the
given seed wins, as in a Python dict comprehension. -/
def seedLookup (l : List SeededTeam) (s : ℕ) : Option SeededTeam :=
  l.reverse.find? (fun t => t.seed == s)

/-- Build one game record. -/
def mkGame (region_name : String) (counter : ℕ) (seed_a seed_b : ℕ)
    (team_a team_b : SeededTeam) : Matchup :=
  { id := s!"{region_name.toLower}-r1-{counter}"
    round := 1
    region := region_name
    team1Seed := seed_a
    team2Seed := seed_b
    team1 := team_a.team_name
    team1Slug := team_a.team_slug
    team1NetRank := team_a.net_rank
    team1Score := team_a.committee_score
    team1Record := team_a.record
    team1Conference := team_a.conference
    team1AutoBid := team_a.is_auto_bid
    team2 := team_b.team_name
    team2Slug := team_b.team_slug
    team2NetRank := team_b.net_rank
    team2Score := team_b.committee_score
    team2Record := team_b.record
    team2Conference := team_b.conference
    team2AutoBid := team_b.is_auto_bid
    analysis := ""
    proTeam1 := []
    proTeam2 := []
    rotobotPick := ""
    rotobotConfidence := 55
    pickReasoning := ""
    team1Full := none
    team2Full := none }

/-- One step of the per-region game loop: emit a game when both seeds of the
pairing are present. -/
def gameStep (region_name : String) (l : List SeededTeam) (acc : List Matchup × ℕ)
    (sab : ℕ × ℕ) : List Matchup × ℕ :=
  match seedLookup l sab.1, seedLookup l sab.2 with
  | some ta, some tb =>
    (acc.1 ++ [mkGame region_name (acc.2 + 1) sab.1 sab.2 ta tb], acc.2 + 1)
  | _, _ => acc

/-- Games of one region: walk the pairing table, emitting a game whenever
both seeds are present, threading the global game counter. -/
def regionGames (region_name : String) (l : List SeededTeam) (counter : ℕ) :
    List Matchup × ℕ :=
  SEED_MATCHUPS.foldl (gameStep region_name l) ([], counter)

/-- `generate_matchups`: all Round-of-64 games, regions in fixed order, one
global game counter. -/
def generate_matchups (rs : Regions) : List Matchup :=
  let e := regionGames "East" rs.east 0
  let w := regionGames "West" rs.west e.2
  let s := regionGames "South" rs.south w.2
  let m := regionGames "Midwest" rs.midwest s.2
  e.1 ++ w.1 ++ s.1 ++ m.1

/-! ## The full pipeline (`run_bracketology`, server variant)

The function is parameterized by the two tables `_load_inputs` produces, so
the embedding is the pure transform between the input records and the bracket
document.  It is factored into named stage functions so theorems can speak
about the intermediate values; `run_bracketology` is exactly their
composition. -/

/-- Field count summary. -/
structure FieldCounts where
  total : ℕ
  autoBids : ℕ
  atLarge : ℕ
deriving DecidableEq, Repr, Inhabited

/-- A region entry of the output document.  The empty-input branch of the
source omits the `topSeed` key; that absent key is modelled as `none`. -/
structure RegionOut where
  teams : List SeededTeam
  topSeed : Option SeededTeam
deriving DecidableEq, Repr, Inhabited

/-- The bracket output document. -/
structure Bracket where
  mode : String
  variance : ℚ
  seed : Option ℤ
  field : FieldCounts
  regions : List (String × RegionOut)
  matchups : List Matchup
  seedList : List SeededTeam
  conferenceBids : List (String × ℕ)
deriving DecidableEq, Repr, Inhabited

/-- The empty bracket returned when the team table is empty. -/
def emptyBracket (sd : Option ℤ) : Bracket :=
  { mode := "deterministic"
    variance := 0
    seed := sd
    field := ⟨0, 0, 0⟩
    regions := REGIONS.map (fun r => (r, ⟨[], none⟩))
    matchups := []
    seedList := []
    conferenceBids := [] }

/-- Scoring pass: attach committee scores and sort descending. -/
def scoredSorted (teamsIn : List TeamRow) : List ScoredTeam :=
  ((teamsIn.map (fun t => ScoredTeam.mk t (compute_committee_score t) false)).insertionSort
    scoreGE)

/-- Order for `Counter.most_common` / `value_counts` (count descending,
stable on ties, i.e. first-encounter order). -/
def countGE (a b : String × ℕ) : Prop := b.2 ≤ a.2

instance : DecidableRel countGE := fun a b => inferInstanceAs (Decidable (b.2 ≤ a.2))

instance : IsTotal (String × ℕ) countGE := ⟨fun a b => Nat.le_total b.2 a.2⟩

instance : IsTrans (String × ℕ) countGE := ⟨fun _ _ _ h1 h2 => le_trans h2 h1⟩

/-- `dict(Counter(confs).most_common(15))`. -/
def conferenceBidCounts (confs : List String) : List (String × ℕ) :=
  (((dedupFirst confs).map (fun c => (c, confs.count c))).insertionSort countGE).take 15

/-- `teams_by_slug` enrichment of a game (`team1Full`/`team2Full`). -/
def enrichGame (seeded : List SeededTeam) (g : Matchup) : Matchup :=
  let bySlug := fun (slug : String) => seeded.reverse.find? (fun t => t.team_slug == slug)
  { g with team1Full := bySlug g.team1Slug, team2Full := bySlug g.team2Slug }

/-- The generator instance a run works with: a fresh `random.Random(seed)`
in shuffle mode, none otherwise. -/
def runRng (shuffle : Bool) (sd : Option ℤ) : Option Rng :=
  if shuffle then some (mkRng sd) else none

/-- The effective variance handed to the stochastic stages
(`variance if shuffle else 0.0`). -/
def effVariance (shuffle : Bool) (variance : ℚ) : ℚ :=
  if shuffle then variance else 0

/-- Stage: projected champions and threaded generator. -/
def runChamps (teamsIn : List TeamRow) (standingsIn : List StandingRow) (g0 : Option Rng)
    (v : ℚ) : List (String × String) × Option Rng :=
  project_conference_champions standingsIn (scoredSorted teamsIn) g0 v

/-- Stage: the auto-bid team set, `set(champions.values())` (modelled in
first-appearance order; only membership and cardinality are consumed). -/
def runAutoBids (teamsIn : List TeamRow) (standingsIn : List StandingRow) (g0 : Option Rng)
    (v : ℚ) : List String :=
  dedupFirst ((runChamps teamsIn standingsIn g0 v).1.map Prod.snd)

/-- Stage: the scored pool with `is_auto_bid` marked. -/
def runMarked (teamsIn : List TeamRow) (auto : List String) : List ScoredTeam :=
  (scoredSorted teamsIn).map
    (fun t => { t with is_auto_bid := auto.contains t.base.team_name_normalized })

/-- Size of the non-auto-bid candidate pool a run selects at-large teams
from. -/
def runPoolSize (teamsIn : List TeamRow) (auto : List String) : ℕ :=
  ((runMarked teamsIn auto).filter
    (fun t => ¬ auto.contains t.base.team_name_normalized)).length

/-- `run_bracketology` given the already-constructed generator instance. -/
def run_bracketology_with (g0 : Option Rng) (teamsIn : List TeamRow)
    (standingsIn : List StandingRow) (shuffle : Bool) (variance : ℚ) (sd : Option ℤ) :
    Bracket :=
  if teamsIn.isEmpty then emptyBracket sd
  else
    let v := effVariance shuffle variance
    let g1 := (runChamps teamsIn standingsIn g0 v).2
    let auto_bid_teams := runAutoBids teamsIn standingsIn g0 v
    let marked := runMarked teamsIn auto_bid_teams
    let n_at_large := 68 - auto_bid_teams.length
    let sel := select_at_large marked auto_bid_teams n_at_large g1 v
    let at_large_teams := sel.1
    let g2 := sel.2
    let field_teams := auto_bid_teams ++ at_large_teams
    let seeded := (assign_seeds marked field_teams g2 v).1
    let regions := place_into_regions seeded g2
    let matchups := (generate_matchups regions).map (enrichGame seeded)
    let field_df := marked.filter (fun t => field_teams.contains t.base.team_name_normalized)
    { mode := if shuffle then "shuffle" else "deterministic"
      variance := v
      seed := sd
      field := ⟨field_teams.length, auto_bid_teams.length, at_large_teams.length⟩
      regions :=
        [("East", ⟨regions.east, regions.east.head?⟩),
         ("West", ⟨regions.west, regions.west.head?⟩),
         ("South", ⟨regions.south, regions.south.head?⟩),
         ("Midwest", ⟨regions.midwest, regions.midwest.head?⟩)]
      matchups := matchups
      seedList := seeded
      conferenceBids := conferenceBidCounts (field_df.map (fun t => t.base.conference)) }

/-- `run_bracketology(shuffle, variance, seed)` over the loaded inputs: a
fresh generator instance is constructed from the seed at the start of the
run. -/
def run_bracketology (teamsIn : List TeamRow) (standingsIn : List StandingRow)
    (shuffle : Bool) (variance : ℚ) (sd : Option ℤ) : Bracket :=
  run_bracketology_with (runRng shuffle sd) teamsIn standingsIn shuffle variance sd

/-! ## Concrete sample inputs used to instantiate the theorems -/

/-- A strong sample resume row. -/
def sampleRow : TeamRow :=
  { team_name_normalized := "alpha", team_name := "Alpha", team_slug := "alpha"
    conference := "SEC", record := "30-2", net_rank := 1, sos_rank := 1
    win_pct := 95, power_score := 95
    q1_record := "10-1", q2_record := "5-0", q3_record := "6-1", q4_record := "9-0" }

/-- Its standings row. -/
def sampleStanding : StandingRow :=
  { team_name_normalized := "alpha", conference := "SEC", conf_pct := 1, record := "30-2" }

/-- A second resume row in another conference. -/
def sampleRowB : TeamRow :=
  { team_name_normalized := "beta", team_name := "Beta", team_slug := "beta"
    conference := "WCC", record := "25-5", net_rank := 20, sos_rank := 40
    win_pct := 83, power_score := 80
    q1_record := "4-2", q2_record := "6-1", q3_record := "8-1", q4_record := "7-1" }

/-- A small scored pool used for witnesses: three distinct non-auto teams. -/
def sampleScored : List ScoredTeam :=
  [⟨sampleRow, 95, false⟩,
   ⟨sampleRowB, 80, false⟩,
   ⟨{ sampleRowB with team_name_normalized := "gamma", team_slug := "gamma" }, 70, false⟩]

/-- A seeded team on a given seed line, for placement witnesses. -/
def sampleSeeded (name : String) (rank seed : ℕ) (conf : String) : SeededTeam :=
  { team_name_normalized := name, team_name := name, team_slug := name
    overall_rank := rank, seed := seed, committee_score := 50
    net_rank := 50, conference := conf, record := "20-10", is_auto_bid := false }

/-- A full 64-team seeded field: 4 teams per seed line, 16 lines, distinct
conferences within each line. -/
def fullField : List SeededTeam :=
  (List.range 64).map (fun i =>
    sampleSeeded (s!"team{i}") (i + 1) (i / 4 + 1) (s!"conf{i % 4}"))

/-! # Lemmas -/

/-! ## Generator and deduplication lemmas -/

theorem rngChoices_length (g : Rng) (n k : ℕ) : (rngChoices g n k).1.length = k := by
  simp [rngChoices]

theorem rngChoices_lt (g : Rng) (n k : ℕ) (hn : 0 < n) :
    ∀ i ∈ (rngChoices g n k).1, i < n := by
  intro i hi
  simp only [rngChoices, List.mem_map] at hi
  obtain ⟨j, _, rfl⟩ := hi
  exact Nat.mod_lt _ hn

theorem mem_dedupFirstAux [DecidableEq α] :
    ∀ (l : List α) (seen : List α) (x : α),
      x ∈ dedupFirstAux seen l ↔ x ∈ l ∧ x ∉ seen
  | [], seen, x => by simp [dedupFirstAux]
  | a :: rest, seen, x => by
    rw [dedupFirstAux]
    by_cases ha : a ∈ seen
    · rw [if_pos ha, mem_dedupFirstAux rest seen x]
      constructor
      · rintro ⟨h1, h2⟩; exact ⟨List.mem_cons_of_mem _ h1, h2⟩
      · rintro ⟨h1, h2⟩
        rcases List.mem_cons.1 h1 with rfl | h1
        · exact absurd ha h2
        · exact ⟨h1, h2⟩
    · rw [if_neg ha]
      by_cases hxa : x = a
      · subst hxa; simp [ha]
      · simp only [List.mem_cons, hxa, false_or]
        rw [mem_dedupFirstAux rest (seen ++ [a]) x]
        simp [hxa]

theorem mem_dedupFirst [DecidableEq α] (l : List α) (x : α) : x ∈ dedupFirst l ↔ x ∈ l := by
  rw [dedupFirst, mem_dedupFirstAux]
  simp

theorem dedupFirst_subset [DecidableEq α] (l : List α) : dedupFirst l ⊆ l :=
  fun _ hx => (mem_dedupFirst _ _).1 hx

theorem dedupFirstAux_nodup [DecidableEq α] :
    ∀ (l : List α) (seen : List α), (dedupFirstAux seen l).Nodup
  | [], _ => by rw [dedupFirstAux]; exact List.nodup_nil
  | a :: rest, seen => by
    rw [dedupFirstAux]
    by_cases ha : a ∈ seen
    · rw [if_pos ha]; exact dedupFirstAux_nodup rest seen
    · rw [if_neg ha]
      refine List.nodup_cons.2 ⟨fun hmem => ?_, dedupFirstAux_nodup rest _⟩
      have := (mem_dedupFirstAux rest (seen ++ [a]) a).1 hmem
      simp at this

theorem dedupFirst_nodup [DecidableEq α] (l : List α) : (dedupFirst l).Nodup :=
  dedupFirstAux_nodup l []

/-! ## Committee-score component bounds -/

theorem clip_bounds (lo hi x : ℚ) (h : lo ≤ hi) : lo ≤ clip lo hi x ∧ clip lo hi x ≤ hi :=
  ⟨le_min h (le_max_left _ _), min_le_left _ _⟩

theorem netComponent_bounds (x : ℚ) : 0 ≤ netComponent x ∧ netComponent x ≤ 100 := by
  unfold netComponent
  have h0 : (0 : ℚ) ≤ max 0 ((365 - x) / 365) * 100 :=
    mul_nonneg (le_max_left _ _) (by norm_num)
  refine ⟨le_min (by norm_num) ?_, min_le_left _ _⟩
  split_ifs <;> linarith

theorem quadComponent_bounds (q1 q2 q3 q4 : ℤ × ℤ) :
    0 ≤ quadComponent q1 q2 q3 q4 ∧ quadComponent q1 q2 q3 q4 ≤ 100 :=
  clip_bounds 0 100 _ (by norm_num)

theorem confComponent_bounds (c : String) (q1 q2 q3 q4 : ℤ × ℤ) :
    0 ≤ confComponent c q1 q2 q3 q4 ∧ confComponent c q1 q2 q3 q4 ≤ 100 :=
  clip_bounds 0 100 _ (by norm_num)

theorem sosPctl_bounds {x : ℚ} (h : 0 ≤ x) :
    0 ≤ max 0 ((365 - x) / 365) * 100 ∧ max 0 ((365 - x) / 365) * 100 ≤ 100 := by
  constructor
  · exact mul_nonneg (le_max_left _ _) (by norm_num)
  · have h1 : (365 - x) / 365 ≤ 1 := by
      rw [div_le_one (by norm_num : (0:ℚ) < 365)]
      linarith
    have h2 : max 0 ((365 - x) / 365) ≤ 1 := max_le (by norm_num) h1
    nlinarith

theorem recordPenaltyCore_nonpos (w l : ℤ) : recordPenaltyCore w l ≤ 0 := by
  unfold recordPenaltyCore
  dsimp only
  split_ifs <;> norm_num

theorem recordPenalty_nonpos (s : String) : recordPenalty s ≤ 0 := by
  unfold recordPenalty
  split
  · exact le_refl 0
  · split
    · exact recordPenaltyCore_nonpos _ _
    · exact le_refl 0
  · split
    · exact recordPenaltyCore_nonpos _ _
    · exact le_refl 0

theorem round2_bounds {q : ℚ} (h0 : 0 ≤ q) (h1 : q ≤ 100) :
    0 ≤ round2 q ∧ round2 q ≤ 100 := by
  unfold round2
  rw [round_eq]
  have hf0 : (0 : ℤ) ≤ ⌊q * 100 + 1 / 2⌋ := Int.floor_nonneg.2 (by linarith)
  have hf1 : ⌊q * 100 + 1 / 2⌋ ≤ 10000 := by
    have hle : (⌊q * 100 + 1 / 2⌋ : ℚ) ≤ q * 100 + 1 / 2 := Int.floor_le _
    have h2 : (⌊q * 100 + 1 / 2⌋ : ℚ) < 10001 := by linarith
    exact Int.lt_add_one_iff.1 (by exact_mod_cast h2)
  constructor
  · exact div_nonneg (by exact_mod_cast hf0) (by norm_num)
  · rw [div_le_iff₀ (by norm_num : (0:ℚ) < 100)]
    calc ((⌊q * 100 + 1 / 2⌋ : ℤ) : ℚ) ≤ ((10000 : ℤ) : ℚ) := by exact_mod_cast hf1
    _ = 100 * 100 := by norm_num

/-- The pre-rounding committee sum is at most 100 (each weighted component is
at most its weight share; the record penalty is never positive), and the
floored value lies in `[0, 100]`. -/
theorem committeePre_max_bounds (row : TeamRow) (hsos0 : 0 ≤ orDefault row.sos_rank 365) :
    0 ≤ max 0 (committeePre row) ∧ max 0 (committeePre row) ≤ 100 := by
  refine ⟨le_max_left _ _, max_le (by norm_num) ?_⟩
  unfold committeePre
  dsimp only
  have h1 := netComponent_bounds (orDefault row.net_rank 365)
  have h2 := quadComponent_bounds (parseQuad row.q1_record) (parseQuad row.q2_record)
    (parseQuad row.q3_record) (parseQuad row.q4_record)
  have h3 := sosPctl_bounds hsos0
  have h4 := clip_bounds 0 100 (orDefault row.win_pct 50) (by norm_num)
  have h5 := clip_bounds 0 100 (orDefault row.power_score 50) (by norm_num)
  have h6 := confComponent_bounds row.conference (parseQuad row.q1_record)
    (parseQuad row.q2_record) (parseQuad row.q3_record) (parseQuad row.q4_record)
  have h7 := recordPenalty_nonpos row.record
  obtain ⟨h1a, h1b⟩ := h1
  obtain ⟨h2a, h2b⟩ := h2
  obtain ⟨h3a, h3b⟩ := h3
  obtain ⟨h4a, h4b⟩ := h4
  obtain ⟨h5a, h5b⟩ := h5
  obtain ⟨h6a, h6b⟩ := h6
  linarith

/-! ## Claim C2 -/

/-- C2: For every valid TeamResume row (integer ranks at least 1, `win_pct`
and `power_score` in `[0, 100]`, arbitrary record and quadrant strings),
`compute_committee_score` returns a value in `[0, 100]` rounded to 2 decimals
(an integer number of hundredths); it is a pure function of the row by
construction (a Lean function). -/
theorem C2_committee_score_range (row : TeamRow)
    (hnet : ∃ n : ℤ, row.net_rank = (n : ℚ) ∧ 1 ≤ n)
    (hsos : ∃ n : ℤ, row.sos_rank = (n : ℚ) ∧ 1 ≤ n)
    (hwin : 0 ≤ row.win_pct ∧ row.win_pct ≤ 100)
    (hpow : 0 ≤ row.power_score ∧ row.power_score ≤ 100) :
    0 ≤ compute_committee_score row ∧ compute_committee_score row ≤ 100 ∧
      ∃ n : ℤ, compute_committee_score row = (n : ℚ) / 100 := by
  have hsos0 : 0 ≤ orDefault row.sos_rank 365 := by
    obtain ⟨n, hn, h1⟩ := hsos
    unfold orDefault
    split_ifs with h
    · norm_num
    · rw [hn]
      exact_mod_cast le_trans zero_le_one h1
  obtain ⟨hb0, hb1⟩ := committeePre_max_bounds row hsos0
  have hr := round2_bounds hb0 hb1
  exact ⟨hr.1, hr.2, ⟨round (max 0 (committeePre row) * 100), rfl⟩⟩

/-- Witness: C2 instantiated at the concrete sample row. -/
theorem C2_committee_score_range_witness :
    0 ≤ compute_committee_score sampleRow ∧ compute_committee_score sampleRow ≤ 100 ∧
      ∃ n : ℤ, compute_committee_score sampleRow = (n : ℚ) / 100 :=
  C2_committee_score_range sampleRow
    ⟨1, by norm_num [sampleRow], le_refl 1⟩
    ⟨1, by norm_num [sampleRow], le_refl 1⟩
    (by norm_num [sampleRow])
    (by norm_num [sampleRow])

/-! ## Claim C9 -/

/-- C9: When the upstream team table is empty, `run_bracketology` (a total
function in this embedding, so it cannot raise) returns the degenerate
bracket: all three field counts 0, the four regions empty, and empty
matchups, seed list, and conference-bid map. -/
theorem C9_empty_input_bracket (standingsIn : List StandingRow) (shuffle : Bool)
    (variance : ℚ) (sd : Option ℤ) :
    (run_bracketology [] standingsIn shuffle variance sd).field.total = 0 ∧
    (run_bracketology [] standingsIn shuffle variance sd).field.autoBids = 0 ∧
    (run_bracketology [] standingsIn shuffle variance sd).field.atLarge = 0 ∧
    (run_bracketology [] standingsIn shuffle variance sd).regions =
      [("East", ⟨[], none⟩), ("West", ⟨[], none⟩),
       ("South", ⟨[], none⟩), ("Midwest", ⟨[], none⟩)] ∧
    (run_bracketology [] standingsIn shuffle variance sd).matchups = [] ∧
    (run_bracketology [] standingsIn shuffle variance sd).seedList = [] ∧
    (run_bracketology [] standingsIn shuffle variance sd).conferenceBids = [] :=
  ⟨rfl, rfl, rfl, rfl, rfl, rfl, rfl⟩

/-! ## Claim C3: counterexample and amended statement -/

/-- C3 counterexample: on a dataset with exactly one team (one conference),
the run produces `autoBids = 1` and `atLarge = 0`, so
`field.atLarge ≠ 68 − field.autoBids`: the claimed identity fails whenever the
candidate pool is too small to fill the field. -/
theorem C3_counterexample :
    ¬ ((run_bracketology [sampleRow] [sampleStanding] false 0 none).field.atLarge =
      68 - (run_bracketology [sampleRow] [sampleStanding] false 0 none).field.autoBids) := by
  decide

theorem dedupFirstAux_length_le [DecidableEq α] :
    ∀ (l seen : List α), (dedupFirstAux seen l).length ≤ l.length
  | [], _ => by simp [dedupFirstAux]
  | a :: rest, seen => by
    rw [dedupFirstAux]
    by_cases ha : a ∈ seen
    · rw [if_pos ha]
      exact le_trans (dedupFirstAux_length_le rest seen) (Nat.le_succ _)
    · rw [if_neg ha, List.length_cons, List.length_cons]
      exact Nat.succ_le_succ (dedupFirstAux_length_le rest _)

theorem dedupFirst_length_le [DecidableEq α] (l : List α) :
    (dedupFirst l).length ≤ l.length :=
  dedupFirstAux_length_le l []

/-- Distinct indices below `n` occupy exactly their cardinality inside
`range n`: filtering `range n` to the complement leaves `n - |uniq|`. -/
theorem length_filter_not_mem_range {uniq : List ℕ} {n : ℕ}
    (hnodup : uniq.Nodup) (hlt : ∀ i ∈ uniq, i < n) :
    ((List.range n).filter (fun j => j ∉ uniq)).length = n - uniq.length := by
  have hperm : ((List.range n).filter (fun j => j ∈ uniq)).Perm uniq := by
    apply List.perm_of_nodup_nodup_toFinset_eq
      ((List.nodup_range n).filter _) hnodup
    ext x
    simp only [List.mem_toFinset, List.mem_filter, List.mem_range, decide_eq_true_eq]
    constructor
    · exact fun h => h.2
    · exact fun h => ⟨hlt x h, h⟩
  have hsplit := List.length_eq_length_filter_add (l := List.range n)
    (fun j => decide (j ∈ uniq))
  rw [List.length_range] at hsplit
  have hmem : ((List.range n).filter (fun j => decide (j ∈ uniq))).length = uniq.length := by
    have : ((List.range n).filter (fun j => decide (j ∈ uniq))) =
        ((List.range n).filter (fun j => j ∈ uniq)) := rfl
    rw [this, hperm.length_eq]
  have hnot : ((List.range n).filter (fun j => j ∉ uniq)) =
      ((List.range n).filter (fun j => !decide (j ∈ uniq))) := by
    apply List.filter_congr
    intro x _
    simp
  rw [hnot]
  omega

/-- Length of the fill loop's result: exactly `min remaining n` whenever the
starting unique indices are distinct, below `n`, and at most that many. -/
theorem fillUnused_length {uniq : List ℕ} {n remaining : ℕ}
    (hnodup : uniq.Nodup) (hlt : ∀ i ∈ uniq, i < n)
    (hlen : uniq.length ≤ min remaining n) :
    (fillUnused uniq n remaining).length = min remaining n := by
  unfold fillUnused
  split_ifs with h
  · omega
  · rw [List.length_append, List.length_take,
      length_filter_not_mem_range hnodup hlt]
    omega

/-- The number of at-large selections is always
`min n_spots |candidates|`, in both the deterministic and the shuffle
branch. -/
theorem select_at_large_length (teams : List ScoredTeam) (auto : List String) (n : ℕ)
    (rng : Option Rng) (v : ℚ) :
    ((select_at_large teams auto n rng v).1).length =
      min n (alCandidates teams auto).length := by
  unfold select_at_large
  by_cases hdet : v = 0 ∨ rng = none
  · rw [if_pos hdet]
    simp
  · rw [if_neg hdet]
    match rng with
    | none => exact absurd (Or.inr rfl) hdet
    | some g =>
      dsimp only
      by_cases hb : (((alCandidates teams auto).drop (n - 6)).take 12).length = 0
      · rw [if_pos hb]
        simp only [List.length_map, List.length_take]
        rw [List.length_take, List.length_drop] at hb
        omega
      · rw [if_neg hb]
        set bubLen := (((alCandidates teams auto).drop (n - 6)).take 12).length with hbl
        simp only [List.length_append, List.length_map, List.length_take]
        have hbval : bubLen = min 12 ((alCandidates teams auto).length - (n - 6)) := by
          rw [hbl, List.length_take, List.length_drop]
        have hdraws := rngChoices_length g bubLen (min (n - (n - 6)) bubLen)
        have hfill : (fillUnused (dedupFirst (rngChoices g bubLen
            (min (n - (n - 6)) bubLen)).1) bubLen (n - (n - 6))).length =
            min (n - (n - 6)) bubLen := by
          apply fillUnused_length (dedupFirst_nodup _)
          · intro i hi
            exact rngChoices_lt g bubLen _ (by omega) i (dedupFirst_subset _ hi)
          · calc (dedupFirst (rngChoices g bubLen (min (n - (n - 6)) bubLen)).1).length
                ≤ (rngChoices g bubLen (min (n - (n - 6)) bubLen)).1.length :=
                  dedupFirst_length_le _
            _ = min (n - (n - 6)) bubLen := hdraws
        rw [hfill]
        omega

/-- C3 amended: for every run, `field.total = field.autoBids + field.atLarge`;
and `field.atLarge = min (68 − field.autoBids) poolSize` where `poolSize` is
the size of the run's non-auto-bid candidate pool — so
`field.atLarge = 68 − field.autoBids` exactly when the pool holds at least
`68 − autoBids` teams (the identity the original claim asserted
unconditionally fails for datasets smaller than the bracket). -/
theorem C3_amended (teamsIn : List TeamRow) (standingsIn : List StandingRow)
    (shuffle : Bool) (variance : ℚ) (sd : Option ℤ) :
    (run_bracketology teamsIn standingsIn shuffle variance sd).field.total =
      (run_bracketology teamsIn standingsIn shuffle variance sd).field.autoBids +
      (run_bracketology teamsIn standingsIn shuffle variance sd).field.atLarge ∧
    (run_bracketology teamsIn standingsIn shuffle variance sd).field.atLarge =
      min (68 - (run_bracketology teamsIn standingsIn shuffle variance sd).field.autoBids)
        (runPoolSize teamsIn
          (runAutoBids teamsIn standingsIn (runRng shuffle sd)
            (effVariance shuffle variance))) := by
  match hte : teamsIn with
  | [] =>
    constructor
    · rfl
    · have hpool : runPoolSize [] (runAutoBids [] standingsIn (runRng shuffle sd)
          (effVariance shuffle variance)) = 0 := rfl
      rw [hpool]
      rfl
  | t0 :: trest =>
    have hne : (t0 :: trest).isEmpty = false := rfl
    unfold run_bracketology run_bracketology_with
    rw [hne]
    simp only [Bool.false_eq_true, if_false]
    constructor
    · exact List.length_append _ _
    · have hsel := select_at_large_length
        (runMarked (t0 :: trest) (runAutoBids (t0 :: trest) standingsIn (runRng shuffle sd)
          (effVariance shuffle variance)))
        (runAutoBids (t0 :: trest) standingsIn (runRng shuffle sd)
          (effVariance shuffle variance))
        (68 - (runAutoBids (t0 :: trest) standingsIn (runRng shuffle sd)
          (effVariance shuffle variance)).length)
        ((runChamps (t0 :: trest) standingsIn (runRng shuffle sd)
          (effVariance shuffle variance)).2)
        (effVariance shuffle variance)
      rw [hsel]
      have hps : (alCandidates
          (runMarked (t0 :: trest) (runAutoBids (t0 :: trest) standingsIn (runRng shuffle sd)
            (effVariance shuffle variance)))
          (runAutoBids (t0 :: trest) standingsIn (runRng shuffle sd)
            (effVariance shuffle variance))).length =
          runPoolSize (t0 :: trest)
            (runAutoBids (t0 :: trest) standingsIn (runRng shuffle sd)
              (effVariance shuffle variance)) := by
        unfold alCandidates runPoolSize
        exact List.length_insertionSort _ _
      rw [hps]

/-! ## Claim C1 -/

/-- C1: Determinism.  For a fixed input dataset and fixed run parameters
`(shuffle, variance, seed)` with a non-null seed, two runs — each with its own
independently constructed generator instance built from that seed — produce
identical bracket documents (`Bracket` equality covers mode, variance, seed,
field counts, regions, matchups, seedList and conferenceBids), and each equals
`run_bracketology` itself.  The embedding makes the source's guarantee
explicit: the output is a function of the inputs, the parameters, and the
deterministic generator stream seeded from the given seed; no global mutable
state exists. -/
theorem C1_run_determinism (teamsIn : List TeamRow) (standingsIn : List StandingRow)
    (shuffle : Bool) (variance : ℚ) (z : ℤ) (g1 g2 : Option Rng)
    (h1 : g1 = runRng shuffle (some z)) (h2 : g2 = runRng shuffle (some z)) :
    run_bracketology_with g1 teamsIn standingsIn shuffle variance (some z) =
      run_bracketology_with g2 teamsIn standingsIn shuffle variance (some z) ∧
    run_bracketology_with g1 teamsIn standingsIn shuffle variance (some z) =
      run_bracketology teamsIn standingsIn shuffle variance (some z) := by
  subst h1
  subst h2
  exact ⟨rfl, rfl⟩

/-- Witness: C1 instantiated on the sample dataset, in shuffle mode with
seed 42. -/
theorem C1_run_determinism_witness :
    run_bracketology_with (runRng true (some 42)) [sampleRow, sampleRowB] [sampleStanding]
        true (1/2) (some 42) =
      run_bracketology_with (runRng true (some 42)) [sampleRow, sampleRowB] [sampleStanding]
        true (1/2) (some 42) ∧
    run_bracketology_with (runRng true (some 42)) [sampleRow, sampleRowB] [sampleStanding]
        true (1/2) (some 42) =
      run_bracketology [sampleRow, sampleRowB] [sampleStanding] true (1/2) (some 42) :=
  C1_run_determinism [sampleRow, sampleRowB] [sampleStanding] true (1/2) 42 _ _ rfl rfl

/-! ## Claim C4 -/

theorem seedify_length : ∀ (k : ℕ) (l : List ScoredTeam), (seedify k l).length = l.length
  | _, [] => rfl
  | k, _ :: rest => by
    rw [seedify, List.length_cons, List.length_cons, seedify_length (k + 1) rest]

theorem seedify_getD :
    ∀ (k : ℕ) (l : List ScoredTeam) (i : ℕ), i < l.length →
      (seedify k l).getD i default = mkSeeded (k + i) (l.getD i default)
  | _, _ :: _, 0, _ => rfl
  | k, _ :: rest, i + 1, h => by
    show (seedify (k + 1) rest).getD i default = _
    rw [seedify_getD (k + 1) rest i (by simpa using h)]
    congr 1
    omega

theorem seedify_score_map :
    ∀ (k : ℕ) (l : List ScoredTeam),
      (seedify k l).map (fun t => t.committee_score) = l.map (fun t => t.committee_score)
  | _, [] => rfl
  | k, t :: rest => by
    rw [seedify, List.map_cons, List.map_cons, seedify_score_map (k + 1) rest]
    rfl

/-- C4: In deterministic mode, `assign_seeds` returns the field sorted by
committee score descending; the `overall_rank` of the team at 0-indexed
position `i` is `i + 1` (hence all ranks are distinct) and its seed line is
`min(16, i / 4 + 1)`. -/
theorem C4_assign_seeds_det (teams : List ScoredTeam) (field_teams : List String) :
    ((assign_seeds teams field_teams none 0).1.map
      (fun t => t.committee_score)).Sorted (fun a b : ℚ => b ≤ a) ∧
    (∀ i, i < (assign_seeds teams field_teams none 0).1.length →
      ((assign_seeds teams field_teams none 0).1.getD i default).overall_rank = i + 1 ∧
      ((assign_seeds teams field_teams none 0).1.getD i default).seed = min 16 (i / 4 + 1)) ∧
    (∀ i j, i < (assign_seeds teams field_teams none 0).1.length →
      j < (assign_seeds teams field_teams none 0).1.length → i ≠ j →
      ((assign_seeds teams field_teams none 0).1.getD i default).overall_rank ≠
        ((assign_seeds teams field_teams none 0).1.getD j default).overall_rank) := by
  have hdef : (assign_seeds teams field_teams none 0).1 =
      seedify 0 ((teams.filter
        (fun t => field_teams.contains t.base.team_name_normalized)).insertionSort scoreGE) :=
    rfl
  set field0 := (teams.filter
    (fun t => field_teams.contains t.base.team_name_normalized)).insertionSort scoreGE
    with hfield0
  have hlen2 : (seedify 0 field0).length = field0.length := seedify_length 0 field0
  refine ⟨?_, ?_, ?_⟩
  · rw [hdef, seedify_score_map]
    have hs : field0.Sorted scoreGE := List.sorted_insertionSort scoreGE _
    exact List.Pairwise.map _ (fun a b hab => hab) hs
  · intro i hi
    rw [hdef] at hi ⊢
    have hi2 : i < field0.length := by rw [← hlen2]; exact hi
    rw [seedify_getD 0 field0 i hi2]
    refine ⟨?_, ?_⟩ <;> simp [mkSeeded]
  · intro i j hi hj hij
    rw [hdef] at hi hj ⊢
    have hi2 : i < field0.length := by rw [← hlen2]; exact hi
    have hj2 : j < field0.length := by rw [← hlen2]; exact hj
    rw [seedify_getD 0 field0 i hi2, seedify_getD 0 field0 j hj2]
    simpa [mkSeeded] using hij

/-- Witness: C4 instantiated on the three-team sample pool; the hypotheses of
the indexed conjuncts are discharged at concrete indices. -/
theorem C4_assign_seeds_det_witness :
    ((assign_seeds sampleScored ["alpha", "beta", "gamma"] none 0).1.getD 0
        default).overall_rank = 1 ∧
    ((assign_seeds sampleScored ["alpha", "beta", "gamma"] none 0).1.getD 0
        default).seed = min 16 (0 / 4 + 1) ∧
    ((assign_seeds sampleScored ["alpha", "beta", "gamma"] none 0).1.getD 0
        default).overall_rank ≠
      ((assign_seeds sampleScored ["alpha", "beta", "gamma"] none 0).1.getD 1
        default).overall_rank := by
  have h := C4_assign_seeds_det sampleScored ["alpha", "beta", "gamma"]
  exact ⟨(h.2.1 0 (by decide)).1, (h.2.1 0 (by decide)).2,
    h.2.2 0 1 (by decide) (by decide) (by decide)⟩

/-! ## Claim C5 -/

/-- Invariant of the strict-improvement scan started at a candidate `b`
whose recorded total is honest: the result is an honest candidate whose total
is a lower bound of `b`'s and of every scanned permutation's total. -/
theorem bestScan_spec (f : List ℕ → ℕ) :
    ∀ (ps : List (List ℕ)) (b : List ℕ × ℕ), b.2 = f b.1 →
      ∃ r, ps.foldl (bestScanStep f) (some b) = some r ∧ r.2 = f r.1 ∧ r.2 ≤ b.2 ∧
        (r.1 = b.1 ∨ r.1 ∈ ps) ∧ ∀ p ∈ ps, r.2 ≤ f p
  | [], b, hb => ⟨b, rfl, hb, le_refl _, Or.inl rfl, by simp⟩
  | p :: rest, b, hb => by
    rw [List.foldl_cons]
    by_cases hc : f p < b.2
    · have hstep : bestScanStep f (some b) p = some (p, f p) := by
        simp [bestScanStep, hc]
      rw [hstep]
      obtain ⟨r, hr1, hr2, hr3, hr4, hr5⟩ := bestScan_spec f rest (p, f p) rfl
      refine ⟨r, hr1, hr2, le_trans hr3 (le_of_lt hc), ?_, ?_⟩
      · rcases hr4 with h | h
        · exact Or.inr (h ▸ List.mem_cons_self _ _)
        · exact Or.inr (List.mem_cons_of_mem _ h)
      · intro q hq
        rcases List.mem_cons.1 hq with rfl | hq
        · exact hr3
        · exact hr5 q hq
    · have hstep : bestScanStep f (some b) p = some b := by
        simp [bestScanStep, hc]
      rw [hstep]
      obtain ⟨r, hr1, hr2, hr3, hr4, hr5⟩ := bestScan_spec f rest b hb
      refine ⟨r, hr1, hr2, hr3, ?_, ?_⟩
      · rcases hr4 with h | h
        · exact Or.inl h
        · exact Or.inr (List.mem_cons_of_mem _ h)
      · intro q hq
        rcases List.mem_cons.1 hq with rfl | hq
        · exact le_trans hr3 (not_lt.1 hc)
        · exact hr5 q hq

/-- The committed permutation is one of the 24 and attains the minimum total
conflict. -/
theorem bestPerm_min (seeded : List SeededTeam) (rs : Regions) (chunk : List SeededTeam) :
    bestPerm seeded rs chunk ∈ PERMS4 ∧
      ∀ p ∈ PERMS4,
        permTotal seeded rs chunk (bestPerm seeded rs chunk) ≤ permTotal seeded rs chunk p := by
  have hps : PERMS4 = [0, 1, 2, 3] :: PERMS4.tail := rfl
  obtain ⟨r, hr1, hr2, hr3, hr4, hr5⟩ :=
    bestScan_spec (permTotal seeded rs chunk) PERMS4.tail
      ([0, 1, 2, 3], permTotal seeded rs chunk [0, 1, 2, 3]) rfl
  have haux : bestPermAux (permTotal seeded rs chunk) PERMS4 = some r := by
    rw [hps]
    exact hr1
  have hbp : bestPerm seeded rs chunk = r.1 := by
    unfold bestPerm
    rw [haux]
  constructor
  · rw [hbp, hps]
    rcases hr4 with h | h
    · exact h ▸ List.mem_cons_self _ _
    · exact List.mem_cons_of_mem _ h
  · intro p hp
    rw [hbp, ← hr2]
    rw [hps] at hp
    rcases List.mem_cons.1 hp with rfl | hp
    · exact hr3
    · exact hr5 p hp

/-- C5: For every full 4-team chunk, the permutation the placement loop
commits (`placeChunk` routes full chunks to `commitPerm` along `bestPerm`)
has a summed conflict score — `permTotal`, built from `conflictScore`, which
charges 200 at the conference cap `max(2, ceil(total/4)+1)` and, per
same-conference team already committed (chunk members excluded), 100 for a
same-half clash, 80 for a {1,2}/{3,4} clash and 8 always — that is minimal
among all 24 chunk-to-region permutations. -/
theorem C5_full_chunk_optimal (seeded : List SeededTeam) (rs : Regions)
    (chunk : List SeededTeam) (h4 : chunk.length = 4) :
    bestPerm seeded rs chunk ∈ PERMS4 ∧
    (∀ p ∈ PERMS4,
      permTotal seeded rs chunk (bestPerm seeded rs chunk) ≤ permTotal seeded rs chunk p) ∧
    placeChunk seeded rs chunk = commitPerm rs chunk (bestPerm seeded rs chunk) := by
  obtain ⟨h1, h2⟩ := bestPerm_min seeded rs chunk
  refine ⟨h1, h2, ?_⟩
  unfold placeChunk
  rw [h4]
  norm_num

/-- Witness: C5 instantiated on a concrete full chunk of the 1-line seed
field against the empty placement state. -/
theorem C5_full_chunk_optimal_witness :
    bestPerm fullField emptyRegions (fullField.take 4) ∈ PERMS4 ∧
    (∀ p ∈ PERMS4,
      permTotal fullField emptyRegions (fullField.take 4)
          (bestPerm fullField emptyRegions (fullField.take 4)) ≤
        permTotal fullField emptyRegions (fullField.take 4) p) ∧
    placeChunk fullField emptyRegions (fullField.take 4) =
      commitPerm emptyRegions (fullField.take 4)
        (bestPerm fullField emptyRegions (fullField.take 4)) :=
  C5_full_chunk_optimal fullField emptyRegions (fullField.take 4) (by decide)

/-! ## Claim C7 -/

theorem nodup_get_inj {α : Type} {l : List α} (h : l.Nodup) {i j : ℕ}
    (hi : i < l.length) (hj : j < l.length)
    (heq : l.get ⟨i, hi⟩ = l.get ⟨j, hj⟩) : i = j :=
  congrArg Fin.val ((List.Nodup.get_inj_iff h).1 heq)

theorem fillUnused_mem_lt {uniq : List ℕ} {n remaining : ℕ} (hlt : ∀ i ∈ uniq, i < n) :
    ∀ i ∈ fillUnused uniq n remaining, i < n := by
  intro i hi
  unfold fillUnused at hi
  split_ifs at hi with h
  · exact hlt i hi
  · rcases List.mem_append.1 hi with h1 | h1
    · exact hlt i h1
    · have h2 := List.take_subset _ _ h1
      have h3 := List.mem_of_mem_filter h2
      exact List.mem_range.1 h3

theorem fillUnused_nodup {uniq : List ℕ} {n remaining : ℕ} (h : uniq.Nodup) :
    (fillUnused uniq n remaining).Nodup := by
  unfold fillUnused
  split_ifs with hc
  · exact h
  · rw [List.nodup_append]
    refine ⟨h, List.Nodup.sublist (List.take_sublist _ _)
      (List.Nodup.filter _ (List.nodup_range n)), ?_⟩
    intro x hx1 hx2
    have h2 := List.take_subset _ _ hx2
    have h3 := List.of_mem_filter h2
    simp only [decide_not, Bool.not_eq_true', decide_eq_false_iff_not] at h3
    exact h3 hx1

/-- Members of the at-large candidate pool are exactly non-auto-bid teams. -/
theorem alCandidates_not_auto (teams : List ScoredTeam) (auto : List String) :
    ∀ t ∈ alCandidates teams auto, auto.contains t.base.team_name_normalized = false := by
  intro t ht
  unfold alCandidates at ht
  rw [List.mem_insertionSort] at ht
  have h := List.of_mem_filter ht
  simpa using h

/-- C7: In randomized mode (positive variance, generator supplied), whenever
the non-auto candidate pool has distinct identifiers and at least `n_spots`
teams, `select_at_large` returns exactly `n_spots` distinct non-auto-bid
identifiers; the first `n_spots − 6` are exactly the top candidates by
committee score, and every remaining selection comes from the 12-team bubble
pool immediately below the locks (filled by the draw-deduplicate-then-greedy
completion loop). -/
theorem C7_randomized_select (teams : List ScoredTeam) (auto : List String) (n : ℕ)
    (g : Rng) (v : ℚ) (hv : 0 < v)
    (hnodup : ((alCandidates teams auto).map (fun t => t.base.team_name_normalized)).Nodup)
    (hsize : n ≤ (alCandidates teams auto).length) :
    ((select_at_large teams auto n (some g) v).1).length = n ∧
    ((select_at_large teams auto n (some g) v).1).Nodup ∧
    (∀ s ∈ (select_at_large teams auto n (some g) v).1, auto.contains s = false) ∧
    ((select_at_large teams auto n (some g) v).1).take (n - 6) =
      ((alCandidates teams auto).take (n - 6)).map (fun t => t.base.team_name_normalized) ∧
    (∀ s ∈ ((select_at_large teams auto n (some g) v).1).drop (n - 6),
      s ∈ (((alCandidates teams auto).drop (n - 6)).take 12).map
        (fun t => t.base.team_name_normalized)) := by
  have hlen : ((select_at_large teams auto n (some g) v).1).length = n := by
    rw [select_at_large_length]
    omega
  have hne : ¬ (v = 0 ∨ (some g : Option Rng) = none) := by
    rintro (h | h)
    · exact absurd h (ne_of_gt hv)
    · exact Option.noConfusion h
  refine ⟨hlen, ?_⟩
  unfold select_at_large
  rw [if_neg hne]
  dsimp only
  by_cases hb : (((alCandidates teams auto).drop (n - 6)).take 12).length = 0
  · -- degenerate: the pool below the locks is empty, forcing n = 0 and an
    -- empty candidate list (given the pool-size hypothesis)
    rw [if_pos hb]
    rw [List.length_take, List.length_drop] at hb
    have hn0 : n = 0 := by omega
    have hc0 : (alCandidates teams auto).length = 0 := by omega
    rw [List.length_eq_zero] at hc0
    subst hn0
    rw [hc0]
    simp
  · rw [if_neg hb]
    set cand := alCandidates teams auto with hcand
    set k := n - 6 with hk
    set bubble := (cand.drop k).take 12 with hbubble
    set remaining := n - k with hremaining
    set uniq2 := fillUnused
      (dedupFirst (rngChoices g bubble.length (min remaining bubble.length)).1)
      bubble.length remaining with huniq2
    set bsel := uniq2.map
      (fun i => (bubble.getD i default).base.team_name_normalized) with hbsel
    have hklen : k ≤ cand.length := by omega
    have hlocks : ((cand.take k).map (fun t => t.base.team_name_normalized)).length = k := by
      rw [List.length_map, List.length_take]
      omega
    have hlockeq : (cand.take k).map (fun t => t.base.team_name_normalized) =
        (cand.map (fun t => t.base.team_name_normalized)).take k :=
      List.map_take _ _ _
    have hbubbleeq : bubble.map (fun t => t.base.team_name_normalized) =
        ((cand.map (fun t => t.base.team_name_normalized)).drop k).take 12 := by
      rw [hbubble, List.map_take, List.map_drop]
    have huniq2lt : ∀ i ∈ uniq2, i < bubble.length := by
      apply fillUnused_mem_lt
      intro i hi
      exact rngChoices_lt g bubble.length _ (by omega) i (dedupFirst_subset _ hi)
    have huniq2nodup : uniq2.Nodup := fillUnused_nodup (dedupFirst_nodup _)
    have hbselmem : ∀ s ∈ bsel, s ∈ bubble.map (fun t => t.base.team_name_normalized) := by
      intro s hs
      rw [hbsel] at hs
      obtain ⟨i, hi, rfl⟩ := List.mem_map.1 hs
      have hilt := huniq2lt i hi
      rw [List.getD_eq_getElem _ _ hilt]
      exact List.mem_map_of_mem _ (List.getElem_mem _)
    have hLnodup := hnodup
    have hdisj : ∀ s, s ∈ (cand.map (fun t => t.base.team_name_normalized)).take k →
        s ∈ ((cand.map (fun t => t.base.team_name_normalized)).drop k) → False := by
      have hsplit : ((cand.map (fun t => t.base.team_name_normalized)).take k ++
          (cand.map (fun t => t.base.team_name_normalized)).drop k).Nodup := by
        rw [List.take_append_drop]
        exact hLnodup
      intro s h1 h2
      exact (List.nodup_append.1 hsplit).2.2 h1 h2
    refine ⟨?_, ?_, ?_, ?_⟩
    · -- Nodup of locks ++ bubble selection
      rw [List.nodup_append]
      refine ⟨?_, ?_, ?_⟩
      · rw [hlockeq]
        exact List.Nodup.sublist (List.take_sublist _ _) hLnodup
      · -- the bubble selection is distinct
        apply List.Nodup.sublist (List.take_sublist _ _)
        rw [hbsel]
        apply List.Nodup.map_on ?_ huniq2nodup
        intro i hi j hj hij
        have hilt := huniq2lt i hi
        have hjlt := huniq2lt j hj
        rw [List.getD_eq_getElem _ _ hilt, List.getD_eq_getElem _ _ hjlt] at hij
        have hbn : (bubble.map (fun t => t.base.team_name_normalized)).Nodup := by
          rw [hbubbleeq]
          exact List.Nodup.sublist (List.take_sublist _ _)
            (List.Nodup.sublist (List.drop_sublist _ _) hLnodup)
        have hi2 : i < (bubble.map (fun t => t.base.team_name_normalized)).length := by
          rw [List.length_map]
          exact hilt
        have hj2 : j < (bubble.map (fun t => t.base.team_name_normalized)).length := by
          rw [List.length_map]
          exact hjlt
        apply nodup_get_inj hbn hi2 hj2
        rw [List.get_eq_getElem, List.get_eq_getElem, List.getElem_map, List.getElem_map]
        exact hij
      · -- locks and bubble selections are disjoint
        intro s hs1 hs2
        have hs2b := hbselmem s (List.take_subset _ _ hs2)
        rw [hbubbleeq] at hs2b
        rw [hlockeq] at hs1
        exact hdisj s hs1 (List.take_subset _ _ hs2b)
    · -- no auto-bid identifier is selected
      intro s hs
      rcases List.mem_append.1 hs with h1 | h1
      · obtain ⟨t, ht, rfl⟩ := List.mem_map.1 h1
        exact alCandidates_not_auto teams auto t (List.take_subset _ _ ht)
      · have h2 := hbselmem s (List.take_subset _ _ h1)
        obtain ⟨t, ht, rfl⟩ := List.mem_map.1 h2
        have : t ∈ cand := List.drop_subset _ _ (List.take_subset _ _ ht)
        exact alCandidates_not_auto teams auto t this
    · -- the first n − 6 selections are the locks
      exact List.take_left' hlocks
    · -- the rest come from the 12-team bubble pool
      intro s hs
      rw [List.drop_left' hlocks] at hs
      exact hbselmem s (List.take_subset _ _ hs)

/-- Witness: C7 instantiated on the three-team sample pool with `n = 2`. -/
theorem C7_randomized_select_witness :
    ((select_at_large sampleScored [] 2 (some (mkRng (some 5))) (1/2)).1).length = 2 ∧
    ((select_at_large sampleScored [] 2 (some (mkRng (some 5))) (1/2)).1).Nodup ∧
    (∀ s ∈ (select_at_large sampleScored [] 2 (some (mkRng (some 5))) (1/2)).1,
      ([] : List String).contains s = false) ∧
    ((select_at_large sampleScored [] 2 (some (mkRng (some 5))) (1/2)).1).take (2 - 6) =
      ((alCandidates sampleScored []).take (2 - 6)).map
        (fun t => t.base.team_name_normalized) ∧
    (∀ s ∈ ((select_at_large sampleScored [] 2 (some (mkRng (some 5))) (1/2)).1).drop (2 - 6),
      s ∈ (((alCandidates sampleScored []).drop (2 - 6)).take 12).map
        (fun t => t.base.team_name_normalized)) :=
  C7_randomized_select sampleScored [] 2 (mkRng (some 5)) (1/2) (by norm_num)
    (by decide) (by decide)

/-! ## Claim C8 -/

theorem mergeRow_conference (teams : List ScoredTeam) (s : StandingRow) :
    (mergeRow teams s).conference = s.conference := by
  unfold mergeRow
  cases teams.find? (fun t => t.base.team_name_normalized == s.team_name_normalized) <;> rfl

theorem mergeRow_slug (teams : List ScoredTeam) (s : StandingRow) :
    (mergeRow teams s).team_name_normalized = s.team_name_normalized := by
  unfold mergeRow
  cases teams.find? (fun t => t.base.team_name_normalized == s.team_name_normalized) <;> rfl

theorem mergeStandings_map_conf (standings : List StandingRow) (teams : List ScoredTeam) :
    (mergeStandings standings teams).map (fun r => r.conference) =
      standings.map (fun s => s.conference) := by
  unfold mergeStandings
  rw [List.map_map]
  apply List.map_congr_left
  intro s _
  exact mergeRow_conference teams s

/-- In the deterministic regime the champion fold appends exactly the
`detChampList` entries and leaves the generator untouched. -/
theorem champStep_fold_det (merged : List MergedRow) (v : ℚ) :
    ∀ (confs : List String) (acc : List (String × String) × Option Rng),
      (v = 0 ∨ acc.2 = none) →
      confs.foldl (champStep merged v) acc = (acc.1 ++ detChampList merged confs, acc.2)
  | [], acc, _ => by simp [detChampList]
  | c :: rest, acc, h => by
    rw [List.foldl_cons]
    cases hcs : confSorted merged c with
    | nil =>
      have hstep : champStep merged v acc c = acc := by
        unfold champStep
        rw [hcs]
      rw [hstep, champStep_fold_det merged v rest acc h]
      have hdl : detChampList merged (c :: rest) = detChampList merged rest := by
        simp only [detChampList]
        rw [hcs]
      rw [hdl]
    | cons top tl =>
      have hstep : champStep merged v acc c =
          (acc.1 ++ [(c, top.team_name_normalized)], acc.2) := by
        unfold champStep
        rw [hcs]
        dsimp only
        rw [if_pos h]
      have hdl : detChampList merged (c :: rest) =
          (c, top.team_name_normalized) :: detChampList merged rest := by
        simp only [detChampList]
        rw [hcs]
      rw [hstep,
        champStep_fold_det merged v rest (acc.1 ++ [(c, top.team_name_normalized)], acc.2) h,
        hdl]
      simp

theorem confSorted_ne_nil {merged : List MergedRow} {c : String}
    (h : ∃ r ∈ merged, r.conference = c) : confSorted merged c ≠ [] := by
  obtain ⟨r, hr, hrc⟩ := h
  intro hnil
  have hmem : r ∈ confSorted merged c := by
    unfold confSorted
    rw [List.mem_insertionSort]
    exact List.mem_filter.2 ⟨hr, by simp [hrc]⟩
  rw [hnil] at hmem
  exact absurd hmem (List.not_mem_nil r)

theorem detChampList_map_fst (merged : List MergedRow) :
    ∀ confs : List String, (∀ c ∈ confs, confSorted merged c ≠ []) →
      (detChampList merged confs).map Prod.fst = confs
  | [], _ => rfl
  | c :: rest, h => by
    cases hcs : confSorted merged c with
    | nil => exact absurd hcs (h c (List.mem_cons_self _ _))
    | cons top tl =>
      have hdl : detChampList merged (c :: rest) =
          (c, top.team_name_normalized) :: detChampList merged rest := by
        simp only [detChampList]
        rw [hcs]
      rw [hdl, List.map_cons,
        detChampList_map_fst merged rest (fun c2 hc2 => h c2 (List.mem_cons_of_mem _ hc2))]

theorem detChampList_mem (merged : List MergedRow) :
    ∀ (confs : List String) (c t : String), (c, t) ∈ detChampList merged confs →
      ∃ top tl, confSorted merged c = top :: tl ∧ t = top.team_name_normalized
  | [], c, t, h => absurd h (List.not_mem_nil _)
  | c0 :: rest, c, t, h => by
    cases hcs : confSorted merged c0 with
    | nil =>
      have hdl : detChampList merged (c0 :: rest) = detChampList merged rest := by
        simp only [detChampList]
        rw [hcs]
      rw [hdl] at h
      exact detChampList_mem merged rest c t h
    | cons top tl =>
      have hdl : detChampList merged (c0 :: rest) =
          (c0, top.team_name_normalized) :: detChampList merged rest := by
        simp only [detChampList]
        rw [hcs]
      rw [hdl] at h
      rcases List.mem_cons.1 h with heq | h2
      · obtain ⟨h3, h4⟩ := Prod.mk.injEq .. ▸ heq
        injection heq with h3 h4
        subst h3
        subst h4
        exact ⟨top, tl, hcs, rfl⟩
      · exact detChampList_mem merged rest c t h2

theorem detChampList_mem_of (merged : List MergedRow) :
    ∀ (confs : List String) (c : String) (top : MergedRow) (tl : List MergedRow),
      c ∈ confs → confSorted merged c = top :: tl →
      (c, top.team_name_normalized) ∈ detChampList merged confs
  | [], c, top, tl, hc, _ => absurd hc (List.not_mem_nil _)
  | c0 :: rest, c, top, tl, hc, hcs => by
    by_cases hcc : c = c0
    · subst hcc
      have hdl : detChampList merged (c :: rest) =
          (c, top.team_name_normalized) :: detChampList merged rest := by
        simp only [detChampList]
        rw [hcs]
      rw [hdl]
      exact List.mem_cons_self _ _
    · have hc2 : c ∈ rest := by
        rcases List.mem_cons.1 hc with h | h
        · exact absurd h hcc
        · exact h
      have ih := detChampList_mem_of merged rest c top tl hc2 hcs
      cases hcs0 : confSorted merged c0 with
      | nil =>
        have hdl : detChampList merged (c0 :: rest) = detChampList merged rest := by
          simp only [detChampList]
          rw [hcs0]
        rw [hdl]
        exact ih
      | cons top0 tl0 =>
        have hdl : detChampList merged (c0 :: rest) =
            (c0, top0.team_name_normalized) :: detChampList merged rest := by
          simp only [detChampList]
          rw [hcs0]
        rw [hdl]
        exact List.mem_cons_of_mem _ ih

theorem champRel_refl (r : MergedRow) : champRel r r :=
  Or.inr ⟨rfl, le_refl _⟩

/-- The head of a conference's sorted contender list is `champRel`-maximal
among all of the conference's merged rows. -/
theorem confSorted_head_max {merged : List MergedRow} {c : String} {top : MergedRow}
    {tl : List MergedRow} (hcs : confSorted merged c = top :: tl) :
    ∀ r ∈ merged, r.conference = c → champRel top r := by
  intro r hr hrc
  have hmem : r ∈ confSorted merged c := by
    unfold confSorted
    rw [List.mem_insertionSort]
    exact List.mem_filter.2 ⟨hr, by simp [hrc]⟩
  have hsorted : (confSorted merged c).Sorted champRel :=
    List.sorted_insertionSort champRel _
  rw [hcs] at hmem hsorted
  rcases List.mem_cons.1 hmem with rfl | h2
  · exact champRel_refl r
  · exact List.rel_of_sorted_cons hsorted r h2

/-- C8: In deterministic mode (variance 0 or no generator), the champion map
has exactly one entry per conference appearing in the standings (keys in
first-appearance order, no duplicates); each champion is a row of its
conference that is maximal for (conf win pct descending, NET rank ascending);
and a conference whose standings reduce to a single row maps to that sole
team. -/
theorem C8_det_champions (standings : List StandingRow) (teams : List ScoredTeam)
    (rng : Option Rng) (v : ℚ) (hdet : v = 0 ∨ rng = none) :
    ((project_conference_champions standings teams rng v).1).map Prod.fst =
      dedupFirst (standings.map (fun s => s.conference)) ∧
    (((project_conference_champions standings teams rng v).1).map Prod.fst).Nodup ∧
    (∀ c t, (c, t) ∈ (project_conference_champions standings teams rng v).1 →
      ∃ row ∈ mergeStandings standings teams, row.conference = c ∧
        row.team_name_normalized = t ∧
        ∀ row2 ∈ mergeStandings standings teams, row2.conference = c → champRel row row2) ∧
    (∀ c srow, standings.filter (fun s => s.conference == c) = [srow] →
      (c, srow.team_name_normalized) ∈ (project_conference_champions standings teams rng v).1) := by
  set merged := mergeStandings standings teams with hmerged
  set confs := dedupFirst (merged.map (fun r => r.conference)) with hconfs
  have hfold : (project_conference_champions standings teams rng v).1 =
      detChampList merged confs := by
    unfold project_conference_champions
    rw [champStep_fold_det merged v confs ([], rng) (by simpa using hdet)]
    simp
  have hnonempty : ∀ c ∈ confs, confSorted merged c ≠ [] := by
    intro c hc
    apply confSorted_ne_nil
    have := (mem_dedupFirst _ _).1 hc
    obtain ⟨r, hr, hrc⟩ := List.mem_map.1 this
    exact ⟨r, hr, hrc⟩
  have hkeys : (detChampList merged confs).map Prod.fst = confs :=
    detChampList_map_fst merged confs hnonempty
  refine ⟨?_, ?_, ?_, ?_⟩
  · rw [hfold, hkeys, hconfs, hmerged, mergeStandings_map_conf]
  · rw [hfold, hkeys]
    exact dedupFirst_nodup _
  · intro c t hct
    rw [hfold] at hct
    obtain ⟨top, tl, hcs, rfl⟩ := detChampList_mem merged confs c t hct
    have htopmem : top ∈ confSorted merged c := by
      rw [hcs]
      exact List.mem_cons_self _ _
    have htop : top ∈ merged ∧ top.conference = c := by
      unfold confSorted at htopmem
      rw [List.mem_insertionSort] at htopmem
      have h2 := List.mem_filter.1 htopmem
      refine ⟨h2.1, ?_⟩
      have := h2.2
      simpa using this
    exact ⟨top, htop.1, htop.2, rfl, confSorted_head_max hcs⟩
  · intro c srow hfilter
    have hsrowmem : srow ∈ standings := by
      have : srow ∈ standings.filter (fun s => s.conference == c) := by
        rw [hfilter]
        exact List.mem_cons_self _ _
      exact List.mem_of_mem_filter this
    have hsrowc : srow.conference = c := by
      have : srow ∈ standings.filter (fun s => s.conference == c) := by
        rw [hfilter]
        exact List.mem_cons_self _ _
      have h2 := List.of_mem_filter this
      simpa using h2
    -- the merged filter for this conference is the single merged row
    have hmfilter : merged.filter (fun r => r.conference == c) = [mergeRow teams srow] := by
      rw [hmerged]
      unfold mergeStandings
      rw [List.filter_map]
      have hcong : (standings.filter ((fun r => r.conference == c) ∘ mergeRow teams)) =
          standings.filter (fun s => s.conference == c) := by
        apply List.filter_congr
        intro s _
        simp [Function.comp, mergeRow_conference]
      rw [hcong, hfilter]
      rfl
    have hcs : confSorted merged c = [mergeRow teams srow] := by
      unfold confSorted
      rw [hmfilter]
      rfl
    have hcmem : c ∈ confs := by
      rw [hconfs, mem_dedupFirst]
      apply List.mem_map.2
      refine ⟨mergeRow teams srow, ?_, mergeRow_conference teams srow ▸ hsrowc⟩
      rw [hmerged]
      unfold mergeStandings
      exact List.mem_map_of_mem _ hsrowmem
    rw [hfold]
    have := detChampList_mem_of merged confs c (mergeRow teams srow) [] hcmem hcs
    rw [mergeRow_slug] at this
    exact this

/-- Witness: C8 instantiated on a two-conference standings table (each with a
single row) against the sample scored pool, deterministic mode. -/
theorem C8_det_champions_witness :
    ((project_conference_champions
        [sampleStanding, ⟨"beta", "WCC", (9 : ℚ)/10, "25-5"⟩]
        sampleScored none 0).1).map Prod.fst =
      dedupFirst (([sampleStanding, ⟨"beta", "WCC", (9 : ℚ)/10, "25-5"⟩] :
        List StandingRow).map (fun s => s.conference)) ∧
    ("SEC", "alpha") ∈ (project_conference_champions
        [sampleStanding, ⟨"beta", "WCC", (9 : ℚ)/10, "25-5"⟩] sampleScored none 0).1 := by
  have h := C8_det_champions [sampleStanding, ⟨"beta", "WCC", (9 : ℚ)/10, "25-5"⟩]
    sampleScored none 0 (Or.inl rfl)
  refine ⟨h.1, ?_⟩
  exact h.2.2.2 "SEC" sampleStanding (by decide)

/-! ## Region-placement lemmas -/

theorem getR_addR (rs : Regions) (r2 r : ℕ) (t : SeededTeam) (h2 : r2 < 4) (h : r < 4) :
    getR (addR rs r2 t) r = if r = r2 then getR rs r ++ [t] else getR rs r := by
  interval_cases r2 <;> interval_cases r <;> simp [addR, getR]

theorem regionsFlat_addR (rs : Regions) (r : ℕ) (t : SeededTeam) :
    (regionsFlat (addR rs r t)).Perm (regionsFlat rs ++ [t]) := by
  rw [List.perm_iff_count]
  intro a
  match r with
  | 0 => simp [addR, regionsFlat, List.count_append, List.count_cons] <;> omega
  | 1 => simp [addR, regionsFlat, List.count_append, List.count_cons] <;> omega
  | 2 => simp [addR, regionsFlat, List.count_append, List.count_cons] <;> omega
  | n + 3 => simp [addR, regionsFlat, List.count_append, List.count_cons] <;> omega

theorem commitPerm_eq (rs : Regions) (chunk : List SeededTeam) (p : List ℕ) :
    commitPerm rs chunk p =
      addR (addR (addR (addR rs 0 (chunk.getD (p.getD 0 0) default))
        1 (chunk.getD (p.getD 1 0) default))
        2 (chunk.getD (p.getD 2 0) default))
        3 (chunk.getD (p.getD 3 0) default) := rfl

theorem commitPerm_getR (rs : Regions) (chunk : List SeededTeam) (p : List ℕ)
    (r : ℕ) (hr : r < 4) :
    getR (commitPerm rs chunk p) r = getR rs r ++ [chunk.getD (p.getD r 0) default] := by
  rw [commitPerm_eq]
  interval_cases r <;> rfl

theorem commitPerm_flat (rs : Regions) (chunk : List SeededTeam) (p : List ℕ) :
    (regionsFlat (commitPerm rs chunk p)).Perm
      (regionsFlat rs ++ [chunk.getD (p.getD 0 0) default, chunk.getD (p.getD 1 0) default,
        chunk.getD (p.getD 2 0) default, chunk.getD (p.getD 3 0) default]) := by
  set c0 := chunk.getD (p.getD 0 0) default
  set c1 := chunk.getD (p.getD 1 0) default
  set c2 := chunk.getD (p.getD 2 0) default
  set c3 := chunk.getD (p.getD 3 0) default
  have h0 := regionsFlat_addR rs 0 c0
  have h1 := regionsFlat_addR (addR rs 0 c0) 1 c1
  have h2 := regionsFlat_addR (addR (addR rs 0 c0) 1 c1) 2 c2
  have h3 := regionsFlat_addR (addR (addR (addR rs 0 c0) 1 c1) 2 c2) 3 c3
  have hchain := h3.trans ((h2.trans ((h1.trans
    (h0.append_right [c1])).append_right [c2])).append_right [c3])
  have heq : (((regionsFlat rs ++ [c0]) ++ [c1]) ++ [c2]) ++ [c3] =
      regionsFlat rs ++ [c0, c1, c2, c3] := by
    simp [List.append_assoc]
  rw [heq] at hchain
  rw [commitPerm_eq]
  exact hchain

theorem regionScanStep_isSome (seeded : List SeededTeam) (rs : Regions) (t : SeededTeam)
    (used : List ℕ) (best : Option (ℕ × ℕ)) (r : ℕ) (h : best.isSome) :
    (regionScanStep seeded rs t used best r).isSome := by
  unfold regionScanStep
  match best, h with
  | some b, _ =>
    dsimp only
    split_ifs <;> simp

theorem regionScanStep_isSome_of_free (seeded : List SeededTeam) (rs : Regions)
    (t : SeededTeam) (used : List ℕ) (best : Option (ℕ × ℕ)) (r : ℕ) (h : r ∉ used) :
    (regionScanStep seeded rs t used best r).isSome := by
  unfold regionScanStep
  rw [if_neg h]
  match best with
  | none => simp
  | some b =>
    dsimp only
    split_ifs <;> simp

theorem regionScan_fold_isSome (seeded : List SeededTeam) (rs : Regions) (t : SeededTeam)
    (used : List ℕ) :
    ∀ (l : List ℕ) (acc : Option (ℕ × ℕ)),
      (acc.isSome ∨ ∃ r ∈ l, r ∉ used) →
      (l.foldl (regionScanStep seeded rs t used) acc).isSome
  | [], acc, h => by
    rcases h with h | ⟨r, hr, _⟩
    · exact h
    · exact absurd hr (List.not_mem_nil r)
  | r0 :: rest, acc, h => by
    rw [List.foldl_cons]
    apply regionScan_fold_isSome seeded rs t used rest
    rcases h with h | ⟨r, hr, hru⟩
    · exact Or.inl (regionScanStep_isSome seeded rs t used acc r0 h)
    · rcases List.mem_cons.1 hr with rfl | hr2
      · exact Or.inl (regionScanStep_isSome_of_free seeded rs t used acc r hru)
      · exact Or.inr ⟨r, hr2, hru⟩

/-- Any result of the greedy scan names an unused region index below 4. -/
theorem regionScan_fold_spec (seeded : List SeededTeam) (rs : Regions) (t : SeededTeam)
    (used : List ℕ) :
    ∀ (l : List ℕ) (acc : Option (ℕ × ℕ)),
      (∀ b, acc = some b → b.1 ∉ used ∧ b.1 < 4) →
      (∀ r ∈ l, r < 4) →
      ∀ b, l.foldl (regionScanStep seeded rs t used) acc = some b → b.1 ∉ used ∧ b.1 < 4
  | [], _, hacc, _, b, hb => hacc b hb
  | r0 :: rest, acc, hacc, hl, b, hb => by
    rw [List.foldl_cons] at hb
    refine regionScan_fold_spec seeded rs t used rest _ ?_ (fun r hr => hl r (List.mem_cons_of_mem _ hr)) b hb
    intro b2 hb2
    unfold regionScanStep at hb2
    by_cases hu : r0 ∈ used
    · rw [if_pos hu] at hb2
      exact hacc b2 hb2
    · rw [if_neg hu] at hb2
      match acc, hb2 with
      | none, hb2 =>
        simp only [Option.some.injEq] at hb2
        subst hb2
        exact ⟨hu, hl r0 (List.mem_cons_self _ _)⟩
      | some b0, hb2 =>
        have hb0 := hacc b0 rfl
        dsimp only at hb2
        split_ifs at hb2 <;> simp only [Option.some.injEq] at hb2 <;> subst hb2
        · exact ⟨hu, hl r0 (List.mem_cons_self _ _)⟩
        · exact hb0

theorem bestRegion_spec (seeded : List SeededTeam) (rs : Regions) (used : List ℕ)
    (t : SeededTeam) (r : ℕ) (h : bestRegion seeded rs used t = some r) :
    r ∉ used ∧ r < 4 := by
  unfold bestRegion at h
  obtain ⟨b, hb, rfl⟩ := Option.map_eq_some'.1 h
  exact regionScan_fold_spec seeded rs t used (List.range 4) none
    (fun b2 hb2 => Option.noConfusion hb2)
    (fun r2 hr2 => List.mem_range.1 hr2) b hb

theorem bestRegion_isSome (seeded : List SeededTeam) (rs : Regions) (used : List ℕ)
    (t : SeededTeam) (h : ∃ r, r < 4 ∧ r ∉ used) : (bestRegion seeded rs used t).isSome := by
  unfold bestRegion
  rw [Option.isSome_map']
  obtain ⟨r, hr4, hru⟩ := h
  exact regionScan_fold_isSome seeded rs t used (List.range 4) none
    (Or.inr ⟨r, List.mem_range.2 hr4, hru⟩)

theorem exists_lt_four_not_mem {used : List ℕ} (hnodup : used.Nodup)
    (hlt : ∀ r ∈ used, r < 4) (hlen : used.length < 4) : ∃ r, r < 4 ∧ r ∉ used := by
  by_contra hcon
  push_neg at hcon
  have hsub : List.range 4 ⊆ used := by
    intro r hr
    exact hcon r (List.mem_range.1 hr)
  have hsp := List.subperm_of_subset (List.nodup_range 4) hsub
  have := hsp.length_le
  rw [List.length_range] at this
  omega

/-- The greedy loop appends exactly the chunk (in some region distribution)
to the placement state. -/
theorem greedyGo_flat (seeded : List SeededTeam) :
    ∀ (chunk : List SeededTeam) (rs : Regions) (used : List ℕ),
      used.Nodup → (∀ r ∈ used, r < 4) → used.length + chunk.length ≤ 4 →
      (regionsFlat (greedyGo seeded rs used chunk)).Perm (regionsFlat rs ++ chunk)
  | [], rs, used, _, _, _ => by
    rw [greedyGo]
    simp
  | t :: rest, rs, used, hnodup, hlt, hlen => by
    have hexists : ∃ r, r < 4 ∧ r ∉ used :=
      exists_lt_four_not_mem hnodup hlt (by simp at hlen; omega)
    have hsome := bestRegion_isSome seeded rs used t hexists
    obtain ⟨r, hr⟩ := Option.isSome_iff_exists.1 hsome
    obtain ⟨hru, hr4⟩ := bestRegion_spec seeded rs used t r hr
    rw [greedyGo, hr]
    have ih := greedyGo_flat seeded rest (addR rs r t) (used ++ [r])
      (by
        rw [List.nodup_append]
        exact ⟨hnodup, List.nodup_singleton r, by
          intro x hx hx2
          rw [List.mem_singleton] at hx2
          subst hx2
          exact hru hx⟩)
      (by
        intro r2 hr2
        rcases List.mem_append.1 hr2 with h | h
        · exact hlt r2 h
        · rw [List.mem_singleton] at h
          subst h
          exact hr4)
      (by simp at hlen ⊢; omega)
    refine ih.trans ?_
    have hadd := regionsFlat_addR rs r t
    refine (hadd.append_right rest).trans ?_
    have heq : (regionsFlat rs ++ [t]) ++ rest = regionsFlat rs ++ (t :: rest) := by
      simp
    rw [heq]

/-- `PERMS4` facts: every listed permutation is a rearrangement of
`[0, 1, 2, 3]` with entries below 4. -/
theorem PERMS4_perm : ∀ p ∈ PERMS4, p.Perm [0, 1, 2, 3] := by decide

theorem PERMS4_getD_lt : ∀ p ∈ PERMS4, ∀ r, r < 4 → p.getD r 0 < 4 := by decide

theorem list_eq_four {l : List SeededTeam} (h : l.length = 4) :
    l = [l.getD 0 default, l.getD 1 default, l.getD 2 default, l.getD 3 default] := by
  match l with
  | [] => simp at h
  | [a] => simp at h
  | [a, b] => simp at h
  | [a, b, c] => simp at h
  | [a, b, c, d] => rfl
  | a :: b :: c :: d :: e :: rest => simp at h

/-- Placing one chunk appends exactly the chunk to the flattened state. -/
theorem placeChunk_flat (seeded : List SeededTeam) (rs : Regions) (chunk : List SeededTeam)
    (hle : chunk.length ≤ 4) :
    (regionsFlat (placeChunk seeded rs chunk)).Perm (regionsFlat rs ++ chunk) := by
  unfold placeChunk
  by_cases hlt : chunk.length < 4
  · rw [if_pos hlt]
    exact greedyGo_flat seeded chunk rs [] List.nodup_nil (by simp)
      (by simp only [List.length_nil]; omega)
  · rw [if_neg hlt]
    have h4 : chunk.length = 4 := by omega
    refine (commitPerm_flat rs chunk (bestPerm seeded rs chunk)).trans ?_
    apply List.Perm.append_left
    set p := bestPerm seeded rs chunk with hp
    have hpmem : p ∈ PERMS4 := (bestPerm_min seeded rs chunk).1
    have hperm : ([p.getD 0 0, p.getD 1 0, p.getD 2 0, p.getD 3 0] :
        List ℕ).Perm [0, 1, 2, 3] := by
      have hpp := PERMS4_perm p hpmem
      have hlen4 : p.length = 4 := hpp.length_eq
      have : p = [p.getD 0 0, p.getD 1 0, p.getD 2 0, p.getD 3 0] := by
        match p, hlen4 with
        | [a, b, c, d], _ => rfl
      rw [← this]
      exact hpp
    have hmap := hperm.map (fun i => chunk.getD i default)
    simp only [List.map_cons, List.map_nil] at hmap
    refine hmap.trans ?_
    rw [← list_eq_four h4]

theorem chunks4_join : ∀ l : List SeededTeam, (chunks4 l).flatten = l
  | [] => rfl
  | [a] => rfl
  | [a, b] => rfl
  | [a, b, c] => rfl
  | a :: b :: c :: d :: rest => by
    show ([a, b, c, d] :: chunks4 rest).flatten = _
    rw [List.flatten_cons, chunks4_join rest]
    rfl

theorem chunks4_mem_length : ∀ (l : List SeededTeam) (c : List SeededTeam),
    c ∈ chunks4 l → c.length ≤ 4
  | [], c, h => absurd h (List.not_mem_nil c)
  | [a], c, h => by
    rw [show chunks4 [a] = [[a]] from rfl, List.mem_singleton] at h
    subst h; simp
  | [a, b], c, h => by
    rw [show chunks4 [a, b] = [[a, b]] from rfl, List.mem_singleton] at h
    subst h; simp
  | [a, b, c0], c, h => by
    rw [show chunks4 [a, b, c0] = [[a, b, c0]] from rfl, List.mem_singleton] at h
    subst h; simp
  | a :: b :: c0 :: d :: rest, c, h => by
    rw [show chunks4 (a :: b :: c0 :: d :: rest) = [a, b, c0, d] :: chunks4 rest from rfl,
      List.mem_cons] at h
    rcases h with rfl | h
    · simp
    · exact chunks4_mem_length rest c h

/-- Folding the chunk placer over any chunk list appends its flattening. -/
theorem placeChunks_flat (seeded : List SeededTeam) :
    ∀ (cs : List (List SeededTeam)) (rs : Regions),
      (∀ c ∈ cs, c.length ≤ 4) →
      (regionsFlat (cs.foldl (placeChunk seeded) rs)).Perm (regionsFlat rs ++ cs.flatten)
  | [], rs, _ => by simp
  | c :: cs, rs, h => by
    rw [List.foldl_cons, List.flatten_cons]
    have ih := placeChunks_flat seeded cs (placeChunk seeded rs c)
      (fun c2 hc2 => h c2 (List.mem_cons_of_mem _ hc2))
    refine ih.trans ?_
    have hc := placeChunk_flat seeded rs c (h c (List.mem_cons_self _ _))
    refine (hc.append_right cs.flatten).trans ?_
    rw [List.append_assoc]

theorem processLine_flat (seeded : List SeededTeam) (rs : Regions)
    (lineTeams : List SeededTeam) :
    (regionsFlat (processLine seeded rs lineTeams)).Perm (regionsFlat rs ++ lineTeams) := by
  unfold processLine
  have h := placeChunks_flat seeded (chunks4 lineTeams) rs (chunks4_mem_length lineTeams)
  rw [chunks4_join] at h
  exact h

/-- Folding the line processor over a seed list appends all the lines. -/
theorem placeLines_flat (seeded : List SeededTeam) :
    ∀ (ss : List ℕ) (rs : Regions),
      (regionsFlat (ss.foldl
        (fun acc s => processLine seeded acc (seeded.filter (fun t => t.seed == s))) rs)).Perm
      (regionsFlat rs ++ ss.flatMap (fun s => seeded.filter (fun t => t.seed == s)))
  | [], rs => by simp
  | s :: ss, rs => by
    rw [List.foldl_cons, List.flatMap_cons]
    have ih := placeLines_flat seeded ss
      (processLine seeded rs (seeded.filter (fun t => t.seed == s)))
    refine ih.trans ?_
    have hline := processLine_flat seeded rs (seeded.filter (fun t => t.seed == s))
    refine (hline.append_right _).trans ?_
    rw [List.append_assoc]

theorem sum_map_ite_single {v : ℕ} :
    ∀ (l : List ℕ) (k : ℕ), l.Nodup → k ∈ l →
      (l.map (fun s => if k = s then v else 0)).sum = v
  | [], k, _, hk => absurd hk (List.not_mem_nil k)
  | s :: rest, k, hnodup, hk => by
    rw [List.map_cons, List.sum_cons]
    by_cases hks : k = s
    · subst hks
      rw [if_pos rfl]
      have hknotin : k ∉ rest := (List.nodup_cons.1 hnodup).1
      have : (rest.map (fun s2 => if k = s2 then v else 0)).sum = 0 := by
        apply List.sum_eq_zero
        intro x hx
        obtain ⟨s2, hs2, rfl⟩ := List.mem_map.1 hx
        rw [if_neg]
        intro hcon
        exact hknotin (hcon ▸ hs2)
      omega
    · rw [if_neg hks]
      have hk2 : k ∈ rest := by
        rcases List.mem_cons.1 hk with h | h
        · exact absurd h hks
        · exact h
      rw [sum_map_ite_single rest k (List.nodup_cons.1 hnodup).2 hk2]
      omega

/-- Grouping by seed line partitions the field (as a multiset), provided all
seeds lie on lines 1..16. -/
theorem bind_filter_seed_perm (seeded : List SeededTeam)
    (h : ∀ t ∈ seeded, 1 ≤ t.seed ∧ t.seed ≤ 16) :
    ((List.range' 1 16).flatMap (fun s => seeded.filter (fun t => t.seed == s))).Perm seeded := by
  rw [List.perm_iff_count]
  intro a
  have hcount : ∀ (ss : List ℕ),
      (ss.flatMap (fun s => seeded.filter (fun t => t.seed == s))).count a =
        (ss.map (fun s => (seeded.filter (fun t => t.seed == s)).count a)).sum := by
    intro ss
    induction ss with
    | nil => rfl
    | cons s rest ih =>
      rw [List.flatMap_cons, List.count_append, List.map_cons, List.sum_cons, ih]
  rw [hcount]
  have hterm : ∀ s : ℕ, (seeded.filter (fun t => t.seed == s)).count a =
      if a.seed = s then seeded.count a else 0 := by
    intro s
    by_cases has : a.seed = s
    · rw [if_pos has]
      apply List.count_filter
      simp [has]
    · rw [if_neg has]
      apply List.count_eq_zero_of_not_mem
      intro hmem
      have := List.of_mem_filter hmem
      simp at this
      exact has this
  have hmapeq : (List.range' 1 16).map
      (fun s => (seeded.filter (fun t => t.seed == s)).count a) =
      (List.range' 1 16).map (fun s => if a.seed = s then seeded.count a else 0) := by
    apply List.map_congr_left
    intro s _
    exact hterm s
  rw [hmapeq]
  by_cases hmem : a ∈ seeded
  · have hseed := h a hmem
    apply sum_map_ite_single
    · exact List.nodup_range' _ _
    · rw [List.mem_range'_1]
      omega
  · have hz : seeded.count a = 0 := List.count_eq_zero_of_not_mem hmem
    rw [hz]
    apply List.sum_eq_zero
    intro x hx
    obtain ⟨s, _, rfl⟩ := List.mem_map.1 hx
    split_ifs <;> rfl

theorem sortRegions_flat (rs : Regions) :
    (regionsFlat (sortRegions rs)).Perm (regionsFlat rs) := by
  unfold sortRegions regionsFlat
  dsimp only
  simp only [List.append_assoc]
  exact ((List.perm_insertionSort seedLE rs.east).append
    ((List.perm_insertionSort seedLE rs.west).append
      ((List.perm_insertionSort seedLE rs.south).append
        (List.perm_insertionSort seedLE rs.midwest))))

/-! ## Claim C10 -/

/-- C10: `place_into_regions` partitions its input: the concatenation of the
four regions' team lists is a permutation of the seeded input — every team
placed exactly once, none dropped, duplicated or invented — for every input
whose seed lines lie in 1..16 (the SeededTeam data-model invariant),
including partial lines and overflow lines with more than 4 teams. -/
theorem C10_place_partition (seeded : List SeededTeam)
    (h : ∀ t ∈ seeded, 1 ≤ t.seed ∧ t.seed ≤ 16) :
    (regionsFlat (place_into_regions seeded none)).Perm seeded := by
  unfold place_into_regions
  refine (sortRegions_flat _).trans ?_
  refine (placeLines_flat seeded (List.range' 1 16) emptyRegions).trans ?_
  have hflat : regionsFlat emptyRegions = [] := rfl
  rw [hflat, List.nil_append]
  exact bind_filter_seed_perm seeded h

/-- Witness: C10 on a 9-team input with a partial line (one 1-seed), a full
line (four 2-seeds) and an overflow line (four 16-seeds plus a fifth). -/
theorem C10_place_partition_witness :
    (regionsFlat (place_into_regions
      [sampleSeeded "a" 1 1 "c0", sampleSeeded "b" 2 2 "c1", sampleSeeded "c" 3 2 "c2",
       sampleSeeded "d" 4 2 "c3", sampleSeeded "e" 5 2 "c0", sampleSeeded "f" 6 16 "c1",
       sampleSeeded "g" 7 16 "c2", sampleSeeded "h" 8 16 "c3", sampleSeeded "i" 9 16 "c0"]
      none)).Perm
      [sampleSeeded "a" 1 1 "c0", sampleSeeded "b" 2 2 "c1", sampleSeeded "c" 3 2 "c2",
       sampleSeeded "d" 4 2 "c3", sampleSeeded "e" 5 2 "c0", sampleSeeded "f" 6 16 "c1",
       sampleSeeded "g" 7 16 "c2", sampleSeeded "h" 8 16 "c3", sampleSeeded "i" 9 16 "c0"] :=
  C10_place_partition _ (by decide)

/-! ## Claim C6 -/

theorem getR_addR_subset (rs : Regions) (r2 r : ℕ) (t : SeededTeam) (h2 : r2 < 4)
    (h : r < 4) : getR rs r ⊆ getR (addR rs r2 t) r := by
  rw [getR_addR rs r2 r t h2 h]
  split_ifs
  · exact fun x hx => List.mem_append_left _ hx
  · exact fun x hx => hx

theorem getR_greedyGo_subset (seeded : List SeededTeam) :
    ∀ (chunk : List SeededTeam) (rs : Regions) (used : List ℕ) (r : ℕ), r < 4 →
      getR rs r ⊆ getR (greedyGo seeded rs used chunk) r
  | [], rs, used, r, _ => by
    rw [greedyGo]
    exact fun x hx => hx
  | t :: rest, rs, used, r, hr => by
    rw [greedyGo]
    cases hbr : bestRegion seeded rs used t with
    | none => exact getR_greedyGo_subset seeded rest rs used r hr
    | some r2 =>
      obtain ⟨_, hr2⟩ := bestRegion_spec seeded rs used t r2 hbr
      intro x hx
      exact getR_greedyGo_subset seeded rest (addR rs r2 t) (used ++ [r2]) r hr
        (getR_addR_subset rs r2 r t hr2 hr hx)

theorem getR_placeChunk_subset (seeded : List SeededTeam) (rs : Regions)
    (chunk : List SeededTeam) (r : ℕ) (hr : r < 4) :
    getR rs r ⊆ getR (placeChunk seeded rs chunk) r := by
  unfold placeChunk
  split_ifs with hlt
  · exact getR_greedyGo_subset seeded chunk rs [] r hr
  · rw [commitPerm_getR rs chunk (bestPerm seeded rs chunk) r hr]
    exact fun x hx => List.mem_append_left _ hx

theorem getR_placeChunks_subset (seeded : List SeededTeam) :
    ∀ (cs : List (List SeededTeam)) (rs : Regions) (r : ℕ), r < 4 →
      getR rs r ⊆ getR (cs.foldl (placeChunk seeded) rs) r
  | [], _, _, _ => fun x hx => hx
  | c :: cs, rs, r, hr => by
    rw [List.foldl_cons]
    intro x hx
    exact getR_placeChunks_subset seeded cs (placeChunk seeded rs c) r hr
      (getR_placeChunk_subset seeded rs c r hr hx)

theorem getR_processLine_subset (seeded : List SeededTeam) (rs : Regions)
    (lineTeams : List SeededTeam) (r : ℕ) (hr : r < 4) :
    getR rs r ⊆ getR (processLine seeded rs lineTeams) r :=
  getR_placeChunks_subset seeded (chunks4 lineTeams) rs r hr

theorem getR_placeLines_subset (seeded : List SeededTeam) :
    ∀ (ss : List ℕ) (rs : Regions) (r : ℕ), r < 4 →
      getR rs r ⊆ getR (ss.foldl (fun acc s2 =>
        processLine seeded acc (seeded.filter (fun t => t.seed == s2))) rs) r
  | [], _, _, _ => fun x hx => hx
  | s :: ss, rs, r, hr => by
    rw [List.foldl_cons]
    intro x hx
    exact getR_placeLines_subset seeded ss _ r hr
      (getR_processLine_subset seeded rs _ r hr hx)

/-- Processing a full (4-team) line hands every region exactly one of the
line's teams. -/
theorem processLine_full_getR (seeded : List SeededTeam) (rs : Regions)
    (line : List SeededTeam) (h4 : line.length = 4) (r : ℕ) (hr : r < 4) :
    ∃ t ∈ line, getR (processLine seeded rs line) r = getR rs r ++ [t] := by
  have hchunks : chunks4 line = [line] := by
    rw [list_eq_four h4]
    rfl
  have hproc : processLine seeded rs line = placeChunk seeded rs line := by
    unfold processLine
    rw [hchunks]
    rfl
  have hplace : placeChunk seeded rs line =
      commitPerm rs line (bestPerm seeded rs line) := by
    unfold placeChunk
    rw [h4]
    norm_num
  have hp := (bestPerm_min seeded rs line).1
  have hidx : (bestPerm seeded rs line).getD r 0 < 4 :=
    PERMS4_getD_lt (bestPerm seeded rs line) hp r hr
  have hidx2 : (bestPerm seeded rs line).getD r 0 < line.length := by omega
  refine ⟨line.getD ((bestPerm seeded rs line).getD r 0) default, ?_, ?_⟩
  · rw [List.getD_eq_getElem _ _ hidx2]
    exact List.getElem_mem _
  · rw [hproc, hplace]
    exact commitPerm_getR rs line (bestPerm seeded rs line) r hr

/-- After processing a list of fully populated seed lines, every region holds
a team from each processed line. -/
theorem placeLines_full_mem (seeded : List SeededTeam) :
    ∀ (ss : List ℕ) (rs : Regions),
      (∀ s ∈ ss, (seeded.filter (fun t => t.seed == s)).length = 4) →
      ∀ r, r < 4 → ∀ s ∈ ss,
        ∃ t, t.seed = s ∧ t ∈ getR (ss.foldl (fun acc s2 =>
          processLine seeded acc (seeded.filter (fun t => t.seed == s2))) rs) r
  | [], _, _, _, _, s, hs => absurd hs (List.not_mem_nil s)
  | s0 :: ss, rs, hfull, r, hr, s, hs => by
    rw [List.foldl_cons]
    rcases List.mem_cons.1 hs with rfl | hs2
    · obtain ⟨t, htline, hteq⟩ := processLine_full_getR seeded rs
        (seeded.filter (fun t => t.seed == s)) (hfull s (List.mem_cons_self _ _)) r hr
      have hseed : t.seed = s := by
        have := List.of_mem_filter htline
        simpa using this
      refine ⟨t, hseed, ?_⟩
      apply getR_placeLines_subset seeded ss _ r hr
      rw [hteq]
      exact List.mem_append_right _ (List.mem_singleton.2 rfl)
    · exact placeLines_full_mem seeded ss _
        (fun s2 hs3 => hfull s2 (List.mem_cons_of_mem _ hs3)) r hr s hs2

theorem getR_sortRegions (rs : Regions) (r : ℕ) (hr : r < 4) :
    getR (sortRegions rs) r = (getR rs r).insertionSort seedLE := by
  interval_cases r <;> rfl

theorem seedLookup_isSome {l : List SeededTeam} {s : ℕ} (h : ∃ t ∈ l, t.seed = s) :
    (seedLookup l s).isSome := by
  unfold seedLookup
  rw [List.find?_isSome]
  obtain ⟨t, ht, hts⟩ := h
  exact ⟨t, List.mem_reverse.2 ht, by simp [hts]⟩

/-- The per-region game fold: with every pairing's two seeds present, it
emits one game per pairing, each with round 1, the region's name, and seeds
from the pairing table. -/
theorem gameStep_fold_spec (rname : String) (l : List SeededTeam) :
    ∀ (pairs : List (ℕ × ℕ)) (acc : List Matchup × ℕ),
      (∀ pr ∈ pairs, (seedLookup l pr.1).isSome ∧ (seedLookup l pr.2).isSome) →
      ((pairs.foldl (gameStep rname l) acc).1.length = acc.1.length + pairs.length) ∧
      (∀ gm ∈ (pairs.foldl (gameStep rname l) acc).1,
        gm ∈ acc.1 ∨ (gm.round = 1 ∧ gm.region = rname ∧
          (gm.team1Seed, gm.team2Seed) ∈ pairs))
  | [], acc, _ => ⟨by simp, fun gm hgm => Or.inl hgm⟩
  | pr :: rest, acc, h => by
    rw [List.foldl_cons]
    obtain ⟨h1, h2⟩ := h pr (List.mem_cons_self _ _)
    obtain ⟨ta, hta⟩ := Option.isSome_iff_exists.1 h1
    obtain ⟨tb, htb⟩ := Option.isSome_iff_exists.1 h2
    have hstep : gameStep rname l acc pr =
        (acc.1 ++ [mkGame rname (acc.2 + 1) pr.1 pr.2 ta tb], acc.2 + 1) := by
      unfold gameStep
      rw [hta, htb]
    rw [hstep]
    obtain ⟨ihlen, ihmem⟩ := gameStep_fold_spec rname l rest
      (acc.1 ++ [mkGame rname (acc.2 + 1) pr.1 pr.2 ta tb], acc.2 + 1)
      (fun pr2 hpr2 => h pr2 (List.mem_cons_of_mem _ hpr2))
    constructor
    · rw [ihlen]
      show (acc.1 ++ [mkGame rname (acc.2 + 1) pr.1 pr.2 ta tb]).length + rest.length =
        acc.1.length + (pr :: rest).length
      rw [List.length_append, List.length_cons]
      simp
      omega
    · intro gm hgm
      rcases ihmem gm hgm with hin | hnew
      · rcases List.mem_append.1 hin with hold | hone
        · exact Or.inl hold
        · rw [List.mem_singleton] at hone
          subst hone
          exact Or.inr ⟨rfl, rfl, List.mem_cons_self _ _⟩
      · exact Or.inr ⟨hnew.1, hnew.2.1, List.mem_cons_of_mem _ hnew.2.2⟩

theorem filter_region_length (l : List Matchup) (nm rname : String)
    (h : ∀ gm ∈ l, gm.region = nm) :
    (l.filter (fun gm => gm.region == rname)).length = if nm = rname then l.length else 0 := by
  split_ifs with hnm
  · have heq : l.filter (fun gm => gm.region == rname) = l :=
      List.filter_eq_self.2 (fun gm hgm => by simp [h gm hgm, hnm])
    rw [heq]
  · have heq : l.filter (fun gm => gm.region == rname) = [] :=
      List.filter_eq_nil_iff.2 (fun gm hgm => by simp [h gm hgm, hnm])
    rw [heq]
    rfl

/-- Every pairing-table seed lies on a line 1..16. -/
theorem SEED_MATCHUPS_range :
    ∀ pr ∈ SEED_MATCHUPS, pr.1 ∈ List.range' 1 16 ∧ pr.2 ∈ List.range' 1 16 := by
  decide

/-- C6: Whenever all 16 seed lines each contain exactly 4 teams (and all
seeds lie on lines 1..16), `generate_matchups` over the placed regions emits
exactly 8 games per region — 32 in total — every game carrying round number 1
and a seed pairing from the fixed table. -/
theorem C6_full_lines_matchups (seeded : List SeededTeam)
    (hseeds : ∀ t ∈ seeded, 1 ≤ t.seed ∧ t.seed ≤ 16)
    (hfull : ∀ s ∈ List.range' 1 16, (seeded.filter (fun t => t.seed == s)).length = 4) :
    (generate_matchups (place_into_regions seeded none)).length = 32 ∧
    (∀ rname ∈ REGIONS,
      ((generate_matchups (place_into_regions seeded none)).filter
        (fun gm => gm.region == rname)).length = 8) ∧
    (∀ gm ∈ generate_matchups (place_into_regions seeded none),
      gm.round = 1 ∧ (gm.team1Seed, gm.team2Seed) ∈ SEED_MATCHUPS) := by
  set rs := place_into_regions seeded none with hrs
  -- every region holds a team on every line 1..16
  have hmem : ∀ r, r < 4 → ∀ s ∈ List.range' 1 16, ∃ t ∈ getR rs r, t.seed = s := by
    intro r hr s hs
    obtain ⟨t, hts, htmem⟩ := placeLines_full_mem seeded (List.range' 1 16)
      emptyRegions hfull r hr s hs
    refine ⟨t, ?_, hts⟩
    rw [hrs]
    unfold place_into_regions
    rw [getR_sortRegions _ r hr, List.mem_insertionSort]
    exact htmem
  have hlook : ∀ r, r < 4 → ∀ pr ∈ SEED_MATCHUPS,
      (seedLookup (getR rs r) pr.1).isSome ∧ (seedLookup (getR rs r) pr.2).isSome := by
    intro r hr pr hpr
    obtain ⟨hp1, hp2⟩ := SEED_MATCHUPS_range pr hpr
    exact ⟨seedLookup_isSome (by
        obtain ⟨t, ht, hts⟩ := hmem r hr pr.1 hp1
        exact ⟨t, ht, hts⟩),
      seedLookup_isSome (by
        obtain ⟨t, ht, hts⟩ := hmem r hr pr.2 hp2
        exact ⟨t, ht, hts⟩)⟩
  have heast := gameStep_fold_spec "East" rs.east SEED_MATCHUPS ([], 0)
    (hlook 0 (by norm_num))
  have hwest := gameStep_fold_spec "West" rs.west SEED_MATCHUPS
    ([], (regionGames "East" rs.east 0).2) (hlook 1 (by norm_num))
  have hsouth := gameStep_fold_spec "South" rs.south SEED_MATCHUPS
    ([], (regionGames "West" rs.west (regionGames "East" rs.east 0).2).2)
    (hlook 2 (by norm_num))
  have hmid := gameStep_fold_spec "Midwest" rs.midwest SEED_MATCHUPS
    ([], (regionGames "South" rs.south
      (regionGames "West" rs.west (regionGames "East" rs.east 0).2).2).2)
    (hlook 3 (by norm_num))
  have hgen : generate_matchups rs =
      (regionGames "East" rs.east 0).1 ++
      (regionGames "West" rs.west (regionGames "East" rs.east 0).2).1 ++
      (regionGames "South" rs.south
        (regionGames "West" rs.west (regionGames "East" rs.east 0).2).2).1 ++
      (regionGames "Midwest" rs.midwest
        (regionGames "South" rs.south
          (regionGames "West" rs.west (regionGames "East" rs.east 0).2).2).2).1 := rfl
  have rGE : (regionGames "East" rs.east 0).1.length = 8 ∧
      ∀ gm ∈ (regionGames "East" rs.east 0).1, gm.round = 1 ∧ gm.region = "East" ∧
        (gm.team1Seed, gm.team2Seed) ∈ SEED_MATCHUPS := by
    constructor
    · exact heast.1.trans rfl
    · intro gm hgm
      rcases heast.2 gm hgm with h | h
      · exact absurd h (List.not_mem_nil gm)
      · exact h
  have rGW : (regionGames "West" rs.west (regionGames "East" rs.east 0).2).1.length = 8 ∧
      ∀ gm ∈ (regionGames "West" rs.west (regionGames "East" rs.east 0).2).1,
        gm.round = 1 ∧ gm.region = "West" ∧ (gm.team1Seed, gm.team2Seed) ∈ SEED_MATCHUPS := by
    constructor
    · exact hwest.1.trans rfl
    · intro gm hgm
      rcases hwest.2 gm hgm with h | h
      · exact absurd h (List.not_mem_nil gm)
      · exact h
  have rGS : (regionGames "South" rs.south
      (regionGames "West" rs.west (regionGames "East" rs.east 0).2).2).1.length = 8 ∧
      ∀ gm ∈ (regionGames "South" rs.south
          (regionGames "West" rs.west (regionGames "East" rs.east 0).2).2).1,
        gm.round = 1 ∧ gm.region = "South" ∧ (gm.team1Seed, gm.team2Seed) ∈ SEED_MATCHUPS := by
    constructor
    · exact hsouth.1.trans rfl
    · intro gm hgm
      rcases hsouth.2 gm hgm with h | h
      · exact absurd h (List.not_mem_nil gm)
      · exact h
  have rGM : (regionGames "Midwest" rs.midwest
      (regionGames "South" rs.south
        (regionGames "West" rs.west (regionGames "East" rs.east 0).2).2).2).1.length = 8 ∧
      ∀ gm ∈ (regionGames "Midwest" rs.midwest
          (regionGames "South" rs.south
            (regionGames "West" rs.west (regionGames "East" rs.east 0).2).2).2).1,
        gm.round = 1 ∧ gm.region = "Midwest" ∧
          (gm.team1Seed, gm.team2Seed) ∈ SEED_MATCHUPS := by
    constructor
    · exact hmid.1.trans rfl
    · intro gm hgm
      rcases hmid.2 gm hgm with h | h
      · exact absurd h (List.not_mem_nil gm)
      · exact h
  refine ⟨?_, ?_, ?_⟩
  · rw [hgen, List.length_append, List.length_append, List.length_append,
      rGE.1, rGW.1, rGS.1, rGM.1]
  · intro rname hrname
    have hr4 : rname = "East" ∨ rname = "West" ∨ rname = "South" ∨ rname = "Midwest" := by
      simpa [REGIONS] using hrname
    rw [hgen, List.filter_append, List.filter_append, List.filter_append,
      List.length_append, List.length_append, List.length_append,
      filter_region_length _ "East" rname (fun gm h => (rGE.2 gm h).2.1),
      filter_region_length _ "West" rname (fun gm h => (rGW.2 gm h).2.1),
      filter_region_length _ "South" rname (fun gm h => (rGS.2 gm h).2.1),
      filter_region_length _ "Midwest" rname (fun gm h => (rGM.2 gm h).2.1),
      rGE.1, rGW.1, rGS.1, rGM.1]
    rcases hr4 with rfl | rfl | rfl | rfl <;> decide
  · intro gm hgm
    rw [hgen] at hgm
    rcases List.mem_append.1 hgm with h3 | hM
    · rcases List.mem_append.1 h3 with h2 | hS
      · rcases List.mem_append.1 h2 with hE | hW
        · exact ⟨(rGE.2 gm hE).1, (rGE.2 gm hE).2.2⟩
        · exact ⟨(rGW.2 gm hW).1, (rGW.2 gm hW).2.2⟩
      · exact ⟨(rGS.2 gm hS).1, (rGS.2 gm hS).2.2⟩
    · exact ⟨(rGM.2 gm hM).1, (rGM.2 gm hM).2.2⟩

/-- Witness: C6 instantiated on the concrete 64-team field (4 teams per seed
line). -/
theorem C6_full_lines_matchups_witness :
    (generate_matchups (place_into_regions fullField none)).length = 32 ∧
    (∀ rname ∈ REGIONS,
      ((generate_matchups (place_into_regions fullField none)).filter
        (fun gm => gm.region == rname)).length = 8) ∧
    (∀ gm ∈ generate_matchups (place_into_regions fullField none),
      gm.round = 1 ∧ (gm.team1Seed, gm.team2Seed) ∈ SEED_MATCHUPS) :=
  C6_full_lines_matchups fullField (by decide) (by decide)

end BracketBuilder
